import Mathlib

/-!
Verification of the reval diff-to-review pipeline.

The TypeScript sources are shallowly embedded here.  JavaScript strings are
modeled as `Str := List Char`; the JS string primitives used by the code
(`split`, `trim`, `indexOf`, `substring`, `replace` with a string pattern,
regular-expression matching) are implemented as executable Lean functions on
`Str`, each documented with the exact source construct it models.  Line
numbers are modeled as `Int` (they are produced by `parseInt` on digit
strings, and the intermediate intersection arithmetic in `storeReview` can go
negative in JS).  Fallible code paths (the `patches[0]` read in
`storeReview`, which throws on an empty patch list) return `Option`.
-/

/-! ## JS string primitives over `Str := List Char` -/

abbrev Str := List Char

/-- Whitespace as matched by JS `\s` / `String.prototype.trim` restricted to
the ASCII range: space, tab, carriage return, newline, vertical tab, form
feed. -/
def isJsWs (c : Char) : Bool :=
  c = ' ' || c = '\t' || c = '\r' || c = '\n' || c = '\x0b' || c = '\x0c'

/-- Model of JS `String.prototype.trim`: drop leading and trailing
whitespace. -/
def jsTrim (s : Str) : Str :=
  (((s.dropWhile isJsWs).reverse).dropWhile isJsWs).reverse

/-- Model of JS `str.split('\n')`: the list of newline-separated lines, with
empty pieces preserved (`"".split('\n') = [""]`, `"a\n".split('\n') =
["a", ""]`). -/
def splitLines : Str → List Str
  | [] => [[]]
  | '\n' :: rest => [] :: splitLines rest
  | c :: rest => (splitLines rest).modifyHead (c :: ·)

/-- Inverse of `splitLines`: join lines with `'\n'`. -/
def joinLines : List Str → Str
  | [] => []
  | [l] => l
  | l :: rest => l ++ '\n' :: joinLines rest

/-- Maximal leading run of decimal digits, together with the rest of the
string (the deterministic reading of a greedy `\d*`). -/
def takeDigits : Str → Str × Str
  | [] => ([], [])
  | c :: cs =>
    if c.isDigit then
      let (ds, rest) := takeDigits cs
      (c :: ds, rest)
    else ([], c :: cs)

/-- Numeric value of a digit string, as read by `parseInt(s, 10)` /
`Number(s)` on a string of decimal digits; `Number('') = 0`, matching JS. -/
def natOfDigits (ds : Str) : Nat :=
  ds.foldl (fun acc c => 10 * acc + (c.toNat - '0'.toNat)) 0

/-- Digit strings as `Int`, the value space used for line numbers. -/
def jsNumberOfDigits (ds : Str) : Int :=
  (natOfDigits ds : Int)

/-- Model of JS `hay.indexOf(needle)`: index of the first occurrence, `none`
for JS `-1`. -/
def firstIndexOf (needle : Str) : Str → Option Nat
  | [] => if needle.isEmpty then some 0 else none
  | c :: rest =>
    if needle.isPrefixOf (c :: rest) then some 0
    else (firstIndexOf needle rest).map (· + 1)

/-- Does `needle` occur somewhere in the string (JS `includes`). -/
def containsStr (needle hay : Str) : Bool :=
  (firstIndexOf needle hay).isSome

/-- Model of JS `s.replace(needle, repl)` with a string pattern: replace the
first occurrence only. -/
def replaceFirst (needle repl : Str) : Str → Str
  | [] => []
  | c :: rest =>
    if needle.isPrefixOf (c :: rest) then repl ++ (c :: rest).drop needle.length
    else c :: replaceFirst needle repl rest

/-- Model of JS `s.substring(a, b)`: the smaller index is used as the start
(JS swaps the arguments when `a > b`) and both are clamped to the length. -/
def jsSubstring (s : Str) (a b : Nat) : Str :=
  (s.take (max a b)).drop (min a b)

/-! ## PatchParser: `patchStartEndLine` (src/unnamed/part_002:387-416) -/

/-- Line range of one side of a hunk, as computed by `patchStartEndLine`. -/
structure HunkRange where
  startLine : Int
  endLine : Int
deriving DecidableEq, Repr

/-- Both sides of a hunk header. -/
structure PatchRanges where
  newHunk : HunkRange
  oldHunk : HunkRange
deriving DecidableEq, Repr

/-- Consume a literal string, failing if it is not a precise leading
segment. -/
def chompLiteral (lit s : Str) : Option Str :=
  if lit.isPrefixOf s then some (s.drop lit.length) else none

/-- Matcher for the hunk-header pattern applied at the start of one line:
the regex in `patchStartEndLine` reads
  at-at space minus (\d+) optional-comma (\d*) space plus (\d+)
  optional-comma (\d*) space at-at
and this returns the four capture groups (the two length groups may be
empty, as `(\d*)` matches the empty string when the length is omitted).
The greedy quantifiers are deterministic here because a shorter digit run
always leaves a digit where the following literal is required. -/
def parseHunkHeaderLine (line : Str) : Option (Str × Str × Str × Str) := do
  let r1 ← chompLiteral "@@ -".data line
  let (g1, r2) := takeDigits r1
  if g1.isEmpty then none else do
  let r3 := if r2.head? = some ',' then r2.drop 1 else r2
  let (g2, r4) := takeDigits r3
  let r5 ← chompLiteral " +".data r4
  let (g3, r6) := takeDigits r5
  if g3.isEmpty then none else do
  let r7 := if r6.head? = some ',' then r6.drop 1 else r6
  let (g4, r8) := takeDigits r7
  let _ ← chompLiteral " @@".data r8
  some (g1, g2, g3, g4)

/-- Model of `patchStartEndLine` (src/unnamed/part_002:387-416).  The `m`
flag makes the anchored pattern try every line start in order; the first
matching line yields the groups.  The source destructures
`[newStart, newRange, oldStart, oldRange]` from groups `3, 4, 1, 2` and maps
them through `Number` (so an absent length group reads as `0`), then
computes each side's `endLine` as `start + max(len - 1, 0)`. -/
def patchStartEndLine (patch : Str) : Option PatchRanges :=
  match (splitLines patch).findSome? parseHunkHeaderLine with
  | none => none
  | some (g1, g2, g3, g4) =>
    let newStart := jsNumberOfDigits g3
    let newRange := jsNumberOfDigits g4
    let oldStart := jsNumberOfDigits g1
    let oldRange := jsNumberOfDigits g2
    some { newHunk := ⟨newStart, newStart + max (newRange - 1) 0⟩
           oldHunk := ⟨oldStart, oldStart + max (oldRange - 1) 0⟩ }

/-- Header text `@@ -a,b +c,d @@` with each length part rendered as
`,digits` when present and omitted entirely when absent. -/
def renderLenPart : Option Str → Str
  | none => []
  | some b => ',' :: b

/-- Render a hunk header line from its four digit-string fields. -/
def renderHunkHeader (a : Str) (b : Option Str) (c : Str) (d : Option Str) : Str :=
  "@@ -".data ++ a ++ renderLenPart b ++ " +".data ++ c ++ renderLenPart d ++ " @@".data

/-- Value of an optional length field: an omitted length defaults to 1 per
the spec; a present field reads as its numeric value. -/
def lenFieldVal : Option Str → Int
  | none => 1
  | some s => jsNumberOfDigits s

/-! ## ResponseParser: `sanitizeResponse` (src/unnamed/part_002:869-911) -/

/-- One step of the `/^ *(\d+): /` line-number strip applied to a single
line: when the line starts with spaces, then at least one digit, then a
colon and a space, that prefix is removed; otherwise the line is kept. -/
def stripLineNumberOne (line : Str) : Str :=
  let afterSpaces := line.dropWhile (· = ' ')
  let (ds, rest) := takeDigits afterSpaces
  match ds, rest with
  | [], _ => line
  | _ :: _, ':' :: ' ' :: tail => tail
  | _ :: _, _ => line

/-- The global multiline replace `codeBlock.replace(/^ *(\d+): /gm, '')`:
the anchor `^` puts at most one match at the start of each line, so the
replace acts line by line. -/
def stripLineNumbers (block : Str) : Str :=
  joinLines ((splitLines block).map stripLineNumberOne)

/-- Model of the `while` loop in `sanitizeCodeBlock`
(src/unnamed/part_002:875-911).  Each iteration finds the next
triple-backtick-plus-label opener, the following triple-backtick closer,
strips echoed line numbers inside, and resumes the search directly after the
closer, never revisiting earlier text; this recursion mirrors that shape.
Each iteration consumes at least the opener and closer (more than one
character), so `fuel := comment.length + 1` can never be exhausted and the
`0` branch is unreachable. -/
def sanitizeCodeBlockLoop (codeBlockStart : Str) : Nat → Str → Str
  | 0, comment => comment
  | fuel + 1, comment =>
    match firstIndexOf codeBlockStart comment with
    | none => comment
    | some i =>
      let afterStart := comment.drop (i + codeBlockStart.length)
      match firstIndexOf "```".data afterStart with
      | none => comment
      | some k =>
        comment.take (i + codeBlockStart.length)
          ++ stripLineNumbers (afterStart.take k)
          ++ "```".data
          ++ sanitizeCodeBlockLoop codeBlockStart fuel (afterStart.drop (k + 3))

/-- Model of `sanitizeCodeBlock` (src/unnamed/part_002:875-911). -/
def sanitizeCodeBlock (comment codeBlockLabel : Str) : Str :=
  sanitizeCodeBlockLoop ("```".data ++ codeBlockLabel) (comment.length + 1) comment

/-- Model of `sanitizeResponse` (src/unnamed/part_002:869-873). -/
def sanitizeResponse (comment : Str) : Str :=
  sanitizeCodeBlock (sanitizeCodeBlock comment "suggestion".data) "diff".data

/-! ## ResponseParser: `parseReview` (src/unnamed/part_002:761-867) -/

/-- A parsed review record (interface `Review` in the source). -/
structure Review where
  startLine : Int
  endLine : Int
  comment : Str
deriving DecidableEq, Repr

/-- A `(startLine, endLine, patchText)` tuple as produced by the
file-processor (`PatchTuple` in the source). -/
abbrev PatchTuple := Int × Int × Str

/-- Matcher for `/(?:^|\s)(\d+)-(\d+):\s*$/` applied at a fixed position:
digits, a dash, digits, a colon, then only whitespace to the end of the
line.  The greedy `\d+` is deterministic because a shorter run leaves a
digit where the dash or colon is required. -/
def matchRangeAt (cs : Str) : Option (Int × Int) :=
  let (d1, r1) := takeDigits cs
  if d1.isEmpty then none else
  match r1 with
  | '-' :: r2 =>
    let (d2, r3) := takeDigits r2
    if d2.isEmpty then none else
    match r3 with
    | ':' :: r4 =>
      if r4.all isJsWs then some (jsNumberOfDigits d1, jsNumberOfDigits d2)
      else none
    | _ => none
  | _ => none

/-- Scan later start positions for the `\s`-anchored alternative of the
range pattern: the whitespace character is consumed by `(?:^|\s)` and the
digits start right after it. -/
def findLineRangeGo : Str → Option (Int × Int)
  | [] => none
  | c :: rest =>
    match (if isJsWs c then matchRangeAt rest else none) with
    | some r => some r
    | none => findLineRangeGo rest

/-- Model of `line.match(lineNumberRangeRegex)` for
`/(?:^|\s)(\d+)-(\d+):\s*$/`: the engine tries the `^` alternative at
position 0 first, then the `\s` alternative at every position from left to
right. -/
def matchLineRange (line : Str) : Option (Int × Int) :=
  match matchRangeAt line with
  | some r => some r
  | none => findLineRangeGo line

/-- Relocation note used when a comment is remapped onto the
largest-overlap patch (src/unnamed/part_002:812-814). -/
def noteOutsideMapped (s e : Int) : Str :=
  "> Note: This review was outside of the patch, so it was mapped to the patch with the greatest overlap. Original lines [".data
    ++ (toString s).data ++ "-".data ++ (toString e).data ++ "]\n\n".data

/-- Relocation note used when no patch overlaps the claimed range
(src/unnamed/part_002:818-820). -/
def noteOutsideNoOverlap (s e : Int) : Str :=
  "> Note: This review was outside of the patch, but no patch was found that overlapped with it. Original lines [".data
    ++ (toString s).data ++ "-".data ++ (toString e).data ++ "]\n\n".data

/-- State of the patch scan inside `storeReview`
(src/unnamed/part_002:786-808). -/
structure PatchScan where
  withinPatch : Bool
  bestPatchStartLine : Int
  bestPatchEndLine : Int
  maxIntersection : Int
deriving DecidableEq, Repr

/-- The `for (const [startLine, endLine] of patches)` loop of `storeReview`:
track the patch with the strictly largest intersection so far; `withinPatch`
is set when that intersection covers the whole claimed range, and the loop
breaks as soon as it is set. -/
def scanPatches (rs re : Int) : List PatchTuple → PatchScan → PatchScan
  | [], st => st
  | (startLine, endLine, _) :: rest, st =>
    let intersectionStart := max rs startLine
    let intersectionEnd := min re endLine
    let intersectionLength := max 0 (intersectionEnd - intersectionStart + 1)
    let st2 :=
      if intersectionLength > st.maxIntersection then
        { withinPatch := intersectionLength = re - rs + 1
          bestPatchStartLine := startLine
          bestPatchEndLine := endLine
          maxIntersection := intersectionLength }
      else st
    if st2.withinPatch then st2 else scanPatches rs re rest st2

/-- Model of `storeReview` (src/unnamed/part_002:778-832): flush the current
block, remapping its range when no patch fully covers the claimed range.
The `patches[0]` read in the no-overlap fallback throws in JS when the patch
list is empty; that is the `none` result here. -/
def storeReview (patches : List PatchTuple)
    (currentStartLine currentEndLine : Option Int) (currentComment : Str)
    (reviews : List Review) : Option (List Review) :=
  match currentStartLine, currentEndLine with
  | some s, some e =>
    let st := scanPatches s e patches ⟨false, -1, -1, 0⟩
    if st.withinPatch then
      some (reviews ++ [⟨s, e, currentComment⟩])
    else if st.bestPatchStartLine ≠ -1 ∧ st.bestPatchEndLine ≠ -1 then
      some (reviews ++
        [⟨st.bestPatchStartLine, st.bestPatchEndLine,
          noteOutsideMapped s e ++ currentComment⟩])
    else
      match patches.head? with
      | some (ps, pe, _) =>
        some (reviews ++ [⟨ps, pe, noteOutsideNoOverlap s e ++ currentComment⟩])
      | none => none
  | _, _ => some reviews

/-- The line loop of `parseReview` (src/unnamed/part_002:834-864): a
range-matching line flushes and opens a block, a `---` line flushes and
closes it, any other line accumulates into the open block's comment. -/
def parseReviewLines (patches : List PatchTuple) :
    List Str → Option Int → Option Int → Str → List Review → Option (List Review)
  | [], cs, ce, cc, revs => storeReview patches cs ce cc revs
  | line :: rest, cs, ce, cc, revs =>
    match matchLineRange line with
    | some (s, e) =>
      match storeReview patches cs ce cc revs with
      | none => none
      | some revs2 => parseReviewLines patches rest (some s) (some e) [] revs2
    | none =>
      if jsTrim line = "---".data then
        match storeReview patches cs ce cc revs with
        | none => none
        | some revs2 => parseReviewLines patches rest none none [] revs2
      else if cs.isSome ∧ ce.isSome then
        parseReviewLines patches rest cs ce (cc ++ line ++ ['\n']) revs
      else
        parseReviewLines patches rest cs ce cc revs

/-- Model of `parseReview` (src/unnamed/part_002:761-867): sanitize the
trimmed response, split into lines, run the block loop, and flush the final
block. -/
def parseReview (response : Str) (patches : List PatchTuple) :
    Option (List Review) :=
  parseReviewLines patches (splitLines (sanitizeResponse (jsTrim response)))
    none none [] []

/-! ## Characterization of the `storeReview` patch scan -/

/-- Length of the intersection of the claimed range `[s, e]` with a patch
range `[ps, pe]`, exactly as computed inside the scan loop. -/
def overlapLen (s e ps pe : Int) : Int :=
  max 0 (min e pe - max s ps + 1)

theorem overlapLen_le (s e ps pe : Int) :
    overlapLen s e ps pe ≤ max 0 (e - s + 1) := by
  unfold overlapLen
  omega

theorem overlapLen_nonneg (s e ps pe : Int) : 0 ≤ overlapLen s e ps pe := by
  unfold overlapLen
  omega

theorem overlapLen_eq_len_iff (s e ps pe : Int) (h : 0 < e - s + 1) :
    overlapLen s e ps pe = e - s + 1 ↔ ps ≤ s ∧ e ≤ pe := by
  unfold overlapLen
  omega


/-- If some patch fully covers the claimed range, the scan ends with
`withinPatch` set.  The two extra hypotheses on `st` are invariants of the
initial state `⟨false, -1, -1, 0⟩`. -/
theorem scanPatches_within_of_covered (rs re : Int) (P : List PatchTuple)
    (st : PatchScan) (hw : st.withinPatch = false)
    (hnn : 0 ≤ st.maxIntersection)
    (hmax : st.maxIntersection < re - rs + 1)
    (hcov : ∃ p ∈ P, overlapLen rs re p.1 p.2.1 = re - rs + 1) :
    (scanPatches rs re P st).withinPatch = true := by
  induction P generalizing st with
  | nil => simp at hcov
  | cons q rest ih =>
    obtain ⟨qs, qe, qt⟩ := q
    rcases hcov with ⟨p, hpmem, hpcov⟩
    simp only [List.mem_cons] at hpmem
    have hIle := overlapLen_le rs re qs qe
    have hInn := overlapLen_nonneg rs re qs qe
    unfold overlapLen at hIle hInn
    simp only [scanPatches]
    by_cases h1 : 0 ⊔ (re ⊓ qe - rs ⊔ qs + 1) > st.maxIntersection
    · rw [if_pos h1]
      by_cases h2 : 0 ⊔ (re ⊓ qe - rs ⊔ qs + 1) = re - rs + 1
      · simp [h2]
      · have hd : decide (0 ⊔ (re ⊓ qe - rs ⊔ qs + 1) = re - rs + 1) = false :=
          decide_eq_false h2
        simp only [hd, Bool.false_eq_true, if_false]
        refine ih _ rfl ?_ ?_ ?_
        · show (0 : Int) ≤ 0 ⊔ (re ⊓ qe - rs ⊔ qs + 1)
          omega
        · show 0 ⊔ (re ⊓ qe - rs ⊔ qs + 1) < re - rs + 1
          omega
        · rcases hpmem with hq | hrest
          · exfalso
            apply h2
            rw [hq] at hpcov
            exact hpcov
          · exact ⟨p, hrest, hpcov⟩
    · rw [if_neg h1, hw, if_neg (by simp)]
      refine ih _ hw hnn hmax ?_
      rcases hpmem with hq | hrest
      · exfalso
        have hpcov2 : overlapLen rs re qs qe = re - rs + 1 := by
          rw [hq] at hpcov
          exact hpcov
        unfold overlapLen at hpcov2
        omega
      · exact ⟨p, hrest, hpcov⟩

/-- If the scan ends with `withinPatch` set, some patch fully covers the
claimed range (and the claimed range is nonempty). -/
theorem scanPatches_covered_of_within (rs re : Int) (P : List PatchTuple)
    (st : PatchScan) (hw : st.withinPatch = false)
    (hnn : 0 ≤ st.maxIntersection)
    (hfin : (scanPatches rs re P st).withinPatch = true) :
    ∃ p ∈ P, overlapLen rs re p.1 p.2.1 = re - rs + 1 ∧ 0 < re - rs + 1 := by
  induction P generalizing st with
  | nil =>
    rw [scanPatches, hw] at hfin
    cases hfin
  | cons q rest ih =>
    obtain ⟨qs, qe, qt⟩ := q
    have hInn := overlapLen_nonneg rs re qs qe
    unfold overlapLen at hInn
    simp only [scanPatches] at hfin
    by_cases h1 : 0 ⊔ (re ⊓ qe - rs ⊔ qs + 1) > st.maxIntersection
    · rw [if_pos h1] at hfin
      by_cases h2 : 0 ⊔ (re ⊓ qe - rs ⊔ qs + 1) = re - rs + 1
      · refine ⟨(qs, qe, qt), List.mem_cons_self _ _, ?_, ?_⟩
        · show overlapLen rs re qs qe = re - rs + 1
          unfold overlapLen
          omega
        · omega
      · have hd : decide (0 ⊔ (re ⊓ qe - rs ⊔ qs + 1) = re - rs + 1) = false :=
          decide_eq_false h2
        simp only [hd, Bool.false_eq_true, if_false] at hfin
        obtain ⟨p, hpmem, hp⟩ :=
          ih _ rfl (by show (0:Int) ≤ 0 ⊔ (re ⊓ qe - rs ⊔ qs + 1); omega) hfin
        exact ⟨p, List.mem_cons_of_mem _ hpmem, hp⟩
    · rw [if_neg h1, hw, if_neg (by simp)] at hfin
      obtain ⟨p, hpmem, hp⟩ := ih _ hw hnn hfin
      exact ⟨p, List.mem_cons_of_mem _ hpmem, hp⟩

/-- When the scan runs to completion without `withinPatch` being set, the
best-patch fields either still hold their initial values (and the running
maximum never moved), or they hold the range of some scanned patch whose
overlap equals the final maximum, which strictly exceeds the initial one;
and every scanned patch's overlap is bounded by the final maximum. -/
theorem scanPatches_best (rs re : Int) (P : List PatchTuple) (st : PatchScan)
    (hfin : (scanPatches rs re P st).withinPatch = false) :
    (st.maxIntersection ≤ (scanPatches rs re P st).maxIntersection
      ∧ ∀ q ∈ P, overlapLen rs re q.1 q.2.1 ≤ (scanPatches rs re P st).maxIntersection)
    ∧ ((scanPatches rs re P st).bestPatchStartLine = st.bestPatchStartLine
        ∧ (scanPatches rs re P st).bestPatchEndLine = st.bestPatchEndLine
        ∧ (scanPatches rs re P st).maxIntersection = st.maxIntersection
      ∨ ∃ p ∈ P, (scanPatches rs re P st).bestPatchStartLine = p.1
          ∧ (scanPatches rs re P st).bestPatchEndLine = p.2.1
          ∧ (scanPatches rs re P st).maxIntersection = overlapLen rs re p.1 p.2.1
          ∧ st.maxIntersection < (scanPatches rs re P st).maxIntersection) := by
  induction P generalizing st with
  | nil =>
    rw [scanPatches]
    exact ⟨⟨le_refl _, by simp⟩, Or.inl ⟨rfl, rfl, rfl⟩⟩
  | cons q rest ih =>
    obtain ⟨qs, qe, qt⟩ := q
    simp only [scanPatches] at hfin ⊢
    by_cases h1 : 0 ⊔ (re ⊓ qe - rs ⊔ qs + 1) > st.maxIntersection
    · rw [if_pos h1] at hfin ⊢
      by_cases h2 :
          (PatchScan.mk (decide (0 ⊔ (re ⊓ qe - rs ⊔ qs + 1) = re - rs + 1))
            qs qe (0 ⊔ (re ⊓ qe - rs ⊔ qs + 1))).withinPatch = true
      · rw [if_pos h2] at hfin
        rw [h2] at hfin
        cases hfin
      · rw [if_neg h2] at hfin ⊢
        obtain ⟨⟨hle, hall⟩, hbest⟩ := ih _ hfin
        constructor
        · constructor
          · calc st.maxIntersection
                ≤ 0 ⊔ (re ⊓ qe - rs ⊔ qs + 1) := le_of_lt h1
              _ ≤ _ := hle
          · intro x hx
            rcases List.mem_cons.mp hx with hxq | hxrest
            · subst hxq
              show overlapLen rs re qs qe ≤ _
              calc overlapLen rs re qs qe
                  = 0 ⊔ (re ⊓ qe - rs ⊔ qs + 1) := rfl
                _ ≤ _ := hle
            · exact hall x hxrest
        · rcases hbest with ⟨hb1, hb2, hb3⟩ | ⟨p, hpmem, hp1, hp2, hp3, hp4⟩
          · refine Or.inr ⟨(qs, qe, qt), List.mem_cons_self _ _, ?_, ?_, ?_, ?_⟩
            · exact hb1
            · exact hb2
            · exact hb3
            · rw [hb3]
              exact h1
          · refine Or.inr ⟨p, List.mem_cons_of_mem _ hpmem, hp1, hp2, hp3, ?_⟩
            calc st.maxIntersection
                ≤ 0 ⊔ (re ⊓ qe - rs ⊔ qs + 1) := le_of_lt h1
              _ < _ := hp4
    · rw [if_neg h1] at hfin ⊢
      by_cases h2 : st.withinPatch = true
      · rw [if_pos h2] at hfin
        rw [h2] at hfin
        cases hfin
      · rw [if_neg h2] at hfin ⊢
        obtain ⟨⟨hle, hall⟩, hbest⟩ := ih _ hfin
        refine ⟨⟨hle, ?_⟩, ?_⟩
        · intro x hx
          rcases List.mem_cons.mp hx with hxq | hxrest
          · subst hxq
            show overlapLen rs re qs qe ≤ _
            have hb : overlapLen rs re qs qe ≤ st.maxIntersection := by
              unfold overlapLen
              omega
            exact le_trans hb hle
          · exact hall x hxrest
        · rcases hbest with h | ⟨p, hpmem, hps⟩
          · exact Or.inl h
          · exact Or.inr ⟨p, List.mem_cons_of_mem _ hpmem, hps⟩

/-- Full characterization of a `storeReview` flush of a block claiming
`[s, e]`: a range fully covered by some patch is kept verbatim; otherwise
the block is remapped to a patch of maximal overlap with the mapped-note
prefix; with no overlapping patch at all it falls back to the first patch
with the no-overlap-note prefix, and that fallback read fails on an empty
patch list. -/
theorem storeReview_flush_spec (P : List PatchTuple) (s e : Int) (cc : Str)
    (revs : List Review) (hp : ∀ p ∈ P, 0 ≤ p.1 ∧ 0 ≤ p.2.1) :
    ((0 < e - s + 1 ∧ ∃ p ∈ P, p.1 ≤ s ∧ e ≤ p.2.1) →
        storeReview P (some s) (some e) cc revs = some (revs ++ [⟨s, e, cc⟩]))
    ∧ (¬ (0 < e - s + 1 ∧ ∃ p ∈ P, p.1 ≤ s ∧ e ≤ p.2.1) →
        ((∃ p ∈ P, 0 < overlapLen s e p.1 p.2.1) →
            ∃ p ∈ P, (∀ q ∈ P, overlapLen s e q.1 q.2.1 ≤ overlapLen s e p.1 p.2.1)
              ∧ storeReview P (some s) (some e) cc revs
                  = some (revs ++ [⟨p.1, p.2.1, noteOutsideMapped s e ++ cc⟩]))
        ∧ ((∀ p ∈ P, overlapLen s e p.1 p.2.1 ≤ 0) →
            (P = [] → storeReview P (some s) (some e) cc revs = none)
            ∧ ∀ p0, P.head? = some p0 →
                storeReview P (some s) (some e) cc revs
                  = some (revs ++ [⟨p0.1, p0.2.1, noteOutsideNoOverlap s e ++ cc⟩]))) := by
  constructor
  · rintro ⟨hL, p, hpmem, hps, hpe⟩
    have hcov : overlapLen s e p.1 p.2.1 = e - s + 1 :=
      (overlapLen_eq_len_iff s e p.1 p.2.1 hL).mpr ⟨hps, hpe⟩
    have hwithin :
        (scanPatches s e P ⟨false, -1, -1, 0⟩).withinPatch = true :=
      scanPatches_within_of_covered s e P _ rfl le_rfl
        (by show (0:Int) < e - s + 1; omega) ⟨p, hpmem, hcov⟩
    simp only [storeReview, hwithin, if_true]
  · intro hnotcov
    have hwfalse : (scanPatches s e P ⟨false, -1, -1, 0⟩).withinPatch = false := by
      cases h : (scanPatches s e P ⟨false, -1, -1, 0⟩).withinPatch with
      | false => rfl
      | true =>
        exfalso
        obtain ⟨p, hpmem, hov, hL⟩ :=
          scanPatches_covered_of_within s e P _ rfl le_rfl h
        exact hnotcov ⟨hL, p, hpmem,
          ((overlapLen_eq_len_iff s e p.1 p.2.1 hL).mp hov)⟩
    obtain ⟨⟨hle0, hall⟩, hbest⟩ := scanPatches_best s e P _ hwfalse
    constructor
    · rintro ⟨q, hqmem, hqpos⟩
      have hmaxpos : 0 < (scanPatches s e P ⟨false, -1, -1, 0⟩).maxIntersection :=
        lt_of_lt_of_le hqpos (hall q hqmem)
      rcases hbest with ⟨hb1, hb2, hb3⟩ | ⟨p, hpmem, hp1, hp2, hp3, hp4⟩
      · exfalso
        rw [hb3] at hmaxpos
        exact lt_irrefl _ hmaxpos
      · refine ⟨p, hpmem, ?_, ?_⟩
        · intro x hx
          rw [← hp3]
          exact hall x hx
        · have hpp := hp p hpmem
          simp only [storeReview, hwfalse, Bool.false_eq_true, if_false, hp1, hp2]
          rw [if_pos (show p.1 ≠ -1 ∧ p.2.1 ≠ -1 by omega)]
    · intro hnone
      have hmax0 : (scanPatches s e P ⟨false, -1, -1, 0⟩).maxIntersection = 0 := by
        rcases hbest with ⟨hb1, hb2, hb3⟩ | ⟨p, hpmem, hp1, hp2, hp3, hp4⟩
        · exact hb3
        · exfalso
          have hinitmax : (PatchScan.mk false (-1) (-1) 0).maxIntersection = 0 := rfl
          rw [hinitmax] at hp4
          have h1 := hnone p hpmem
          have h2 := overlapLen_nonneg s e p.1 p.2.1
          rw [← hp3] at h1 h2
          omega
      have hbinit : (scanPatches s e P ⟨false, -1, -1, 0⟩).bestPatchStartLine = -1
          ∧ (scanPatches s e P ⟨false, -1, -1, 0⟩).bestPatchEndLine = -1 := by
        rcases hbest with ⟨hb1, hb2, hb3⟩ | ⟨p, hpmem, hp1, hp2, hp3, hp4⟩
        · exact ⟨hb1, hb2⟩
        · exfalso
          have hinitmax : (PatchScan.mk false (-1) (-1) 0).maxIntersection = 0 := rfl
          rw [hinitmax, hmax0] at hp4
          omega
      have hcond : ¬ ((scanPatches s e P ⟨false, -1, -1, 0⟩).bestPatchStartLine ≠ -1
          ∧ (scanPatches s e P ⟨false, -1, -1, 0⟩).bestPatchEndLine ≠ -1) := by
        rw [hbinit.1]
        simp
      constructor
      · intro hPnil
        subst hPnil
        simp only [storeReview, hwfalse, Bool.false_eq_true, if_false,
          if_neg hcond, List.head?_nil]
      · intro p0 hp0
        obtain ⟨p0s, p0e, p0t⟩ := p0
        simp only [storeReview, hwfalse, Bool.false_eq_true, if_false,
          if_neg hcond, hp0]

/-- A successful flush appends exactly one review, whose value does not
depend on the reviews already accumulated. -/
theorem storeReview_some_shape (P : List PatchTuple) (s e : Int) (cc : Str)
    (revs out : List Review)
    (h : storeReview P (some s) (some e) cc revs = some out) :
    ∃ r0, out = revs ++ [r0]
      ∧ storeReview P (some s) (some e) cc [] = some [r0] := by
  simp only [storeReview] at h ⊢
  by_cases h1 : (scanPatches s e P ⟨false, -1, -1, 0⟩).withinPatch = true
  · rw [if_pos h1] at h ⊢
    obtain rfl : revs ++ [(⟨s, e, cc⟩ : Review)] = out := by injection h
    exact ⟨_, rfl, by simp⟩
  · rw [if_neg h1] at h ⊢
    by_cases h2 : (scanPatches s e P ⟨false, -1, -1, 0⟩).bestPatchStartLine ≠ -1
        ∧ (scanPatches s e P ⟨false, -1, -1, 0⟩).bestPatchEndLine ≠ -1
    · rw [if_pos h2] at h ⊢
      obtain rfl : revs ++ [_] = out := by injection h
      exact ⟨_, rfl, by simp⟩
    · rw [if_neg h2] at h ⊢
      cases P with
      | nil =>
        rw [List.head?_nil] at h
        cases h
      | cons p0 rest =>
        obtain ⟨p0s, p0e, p0t⟩ := p0
        rw [List.head?_cons] at h ⊢
        obtain rfl : revs ++ [_] = out := by injection h
        exact ⟨_, rfl, by simp⟩

/-- With a non-empty patch list every flush succeeds. -/
theorem storeReview_isSome (P : List PatchTuple) (hne : P ≠ [])
    (cs ce : Option Int) (cc : Str) (revs : List Review) :
    (storeReview P cs ce cc revs).isSome := by
  match cs, ce with
  | none, _ => simp [storeReview]
  | some s, none => simp [storeReview]
  | some s, some e =>
    simp only [storeReview]
    by_cases h1 : (scanPatches s e P ⟨false, -1, -1, 0⟩).withinPatch = true
    · rw [if_pos h1]
      rfl
    · rw [if_neg h1]
      by_cases h2 : (scanPatches s e P ⟨false, -1, -1, 0⟩).bestPatchStartLine ≠ -1
          ∧ (scanPatches s e P ⟨false, -1, -1, 0⟩).bestPatchEndLine ≠ -1
      · rw [if_pos h2]
        rfl
      · rw [if_neg h2]
        cases hP : P.head? with
        | none =>
          exfalso
          exact hne (List.head?_eq_none_iff.mp hP)
        | some p0 =>
          obtain ⟨p0s, p0e, p0t⟩ := p0
          rfl

/-- With a non-empty patch list the whole line loop succeeds. -/
theorem parseReviewLines_isSome (P : List PatchTuple) (hne : P ≠ [])
    (lines : List Str) (cs ce : Option Int) (cc : Str) (revs : List Review) :
    (parseReviewLines P lines cs ce cc revs).isSome := by
  induction lines generalizing cs ce cc revs with
  | nil => exact storeReview_isSome P hne cs ce cc revs
  | cons line rest ih =>
    simp only [parseReviewLines]
    cases hm : matchLineRange line with
    | some r =>
      obtain ⟨s, e⟩ := r
      cases hst : storeReview P cs ce cc revs with
      | none =>
        exfalso
        have := storeReview_isSome P hne cs ce cc revs
        rw [hst] at this
        cases this
      | some revs2 => exact ih _ _ _ _
    | none =>
      by_cases hsep : jsTrim line = "---".data
      · rw [if_pos hsep]
        cases hst : storeReview P cs ce cc revs with
        | none =>
          exfalso
          have := storeReview_isSome P hne cs ce cc revs
          rw [hst] at this
          cases this
        | some revs2 => exact ih _ _ _ _
      · rw [if_neg hsep]
        by_cases hcur : cs.isSome ∧ ce.isSome
        · rw [if_pos hcur]
          exact ih _ _ _ _
        · rw [if_neg hcur]
          exact ih _ _ _ _

/-- Every review produced by the line loop is either carried in from the
accumulator or is the verbatim output of a single flush. -/
theorem parseReviewLines_provenance (P : List PatchTuple) (lines : List Str)
    (cs ce : Option Int) (cc : Str) (revs out : List Review)
    (h : parseReviewLines P lines cs ce cc revs = some out) :
    ∀ r ∈ out, r ∈ revs ∨
      ∃ s e c, storeReview P (some s) (some e) c [] = some [r] := by
  induction lines generalizing cs ce cc revs with
  | nil =>
    intro r hr
    match cs, ce, h with
    | none, ce, h =>
      simp only [parseReviewLines, storeReview] at h
      obtain rfl : revs = out := by injection h
      exact Or.inl hr
    | some s, none, h =>
      simp only [parseReviewLines, storeReview] at h
      obtain rfl : revs = out := by injection h
      exact Or.inl hr
    | some s, some e, h =>
      obtain ⟨r0, rfl, h0⟩ := storeReview_some_shape P s e cc revs out h
      rcases List.mem_append.mp hr with hin | hin
      · exact Or.inl hin
      · obtain rfl := List.mem_singleton.mp hin
        exact Or.inr ⟨s, e, cc, h0⟩
  | cons line rest ih =>
    simp only [parseReviewLines] at h
    cases hm : matchLineRange line with
    | some r1 =>
      obtain ⟨s1, e1⟩ := r1
      rw [hm] at h
      cases hst : storeReview P cs ce cc revs with
      | none =>
        rw [hst] at h
        cases h
      | some revs2 =>
        rw [hst] at h
        intro r hr
        rcases ih _ _ _ _ h r hr with hin | hout
        · match cs, ce, hst with
          | none, ce, hst =>
            simp only [storeReview] at hst
            obtain rfl : revs = revs2 := by injection hst
            exact Or.inl hin
          | some s, none, hst =>
            simp only [storeReview] at hst
            obtain rfl : revs = revs2 := by injection hst
            exact Or.inl hin
          | some s, some e, hst =>
            obtain ⟨r0, rfl, h0⟩ := storeReview_some_shape P s e cc revs revs2 hst
            rcases List.mem_append.mp hin with hin2 | hin2
            · exact Or.inl hin2
            · obtain rfl := List.mem_singleton.mp hin2
              exact Or.inr ⟨s, e, cc, h0⟩
        · exact Or.inr hout
    | none =>
      rw [hm] at h
      by_cases hsep : jsTrim line = "---".data
      · rw [if_pos hsep] at h
        cases hst : storeReview P cs ce cc revs with
        | none =>
          rw [hst] at h
          cases h
        | some revs2 =>
          rw [hst] at h
          intro r hr
          rcases ih _ _ _ _ h r hr with hin | hout
          · match cs, ce, hst with
            | none, ce, hst =>
              simp only [storeReview] at hst
              obtain rfl : revs = revs2 := by injection hst
              exact Or.inl hin
            | some s, none, hst =>
              simp only [storeReview] at hst
              obtain rfl : revs = revs2 := by injection hst
              exact Or.inl hin
            | some s, some e, hst =>
              obtain ⟨r0, rfl, h0⟩ := storeReview_some_shape P s e cc revs revs2 hst
              rcases List.mem_append.mp hin with hin2 | hin2
              · exact Or.inl hin2
              · obtain rfl := List.mem_singleton.mp hin2
                exact Or.inr ⟨s, e, cc, h0⟩
          · exact Or.inr hout
      · rw [if_neg hsep] at h
        by_cases hcur : cs.isSome ∧ ce.isSome
        · rw [if_pos hcur] at h
          exact ih _ _ _ _ h
        · rw [if_neg hcur] at h
          exact ih _ _ _ _ h

/-- With an empty patch list, the line loop fails as soon as any block must
be flushed: either a block is already open, or some remaining line opens
one. -/
theorem parseReviewLines_nil_patches_none (lines : List Str)
    (cs ce : Option Int) (cc : Str) (revs : List Review)
    (h : (cs.isSome ∧ ce.isSome) ∨ ∃ l ∈ lines, (matchLineRange l).isSome) :
    parseReviewLines [] lines cs ce cc revs = none := by
  induction lines generalizing cs ce cc revs with
  | nil =>
    rcases h with ⟨hcs, hce⟩ | ⟨l, hl, _⟩
    · obtain ⟨s, hs⟩ := Option.isSome_iff_exists.mp hcs
      obtain ⟨e, he⟩ := Option.isSome_iff_exists.mp hce
      subst hs he
      simp only [parseReviewLines, storeReview, scanPatches]
      norm_num
    · cases hl
  | cons line rest ih =>
    simp only [parseReviewLines]
    cases hm : matchLineRange line with
    | some r =>
      obtain ⟨s, e⟩ := r
      rcases h with ⟨hcs, hce⟩ | hrest
      · obtain ⟨s0, hs⟩ := Option.isSome_iff_exists.mp hcs
        obtain ⟨e0, he⟩ := Option.isSome_iff_exists.mp hce
        subst hs he
        have hnone : storeReview [] (some s0) (some e0) cc revs = none := by
          simp only [storeReview, scanPatches]
          norm_num
        rw [hnone]
      · cases hst : storeReview [] cs ce cc revs with
        | none => rfl
        | some revs2 => exact ih _ _ _ _ (Or.inl ⟨rfl, rfl⟩)
    | none =>
      have hrest : (cs.isSome ∧ ce.isSome) ∨
          ∃ l ∈ rest, (matchLineRange l).isSome := by
        rcases h with hcur | ⟨l, hl, hsome⟩
        · exact Or.inl hcur
        · rcases List.mem_cons.mp hl with rfl | hmem
          · rw [hm] at hsome
            cases hsome
          · exact Or.inr ⟨l, hmem, hsome⟩
      by_cases hsep : jsTrim line = "---".data
      · rw [if_pos hsep]
        rcases hrest with ⟨hcs, hce⟩ | hrest2
        · obtain ⟨s0, hs⟩ := Option.isSome_iff_exists.mp hcs
          obtain ⟨e0, he⟩ := Option.isSome_iff_exists.mp hce
          subst hs he
          have hnone : storeReview [] (some s0) (some e0) cc revs = none := by
            simp only [storeReview, scanPatches]
            norm_num
          rw [hnone]
        · cases hst : storeReview [] cs ce cc revs with
          | none => rfl
          | some revs2 => exact ih _ _ _ _ (Or.inr hrest2)
      · rw [if_neg hsep]
        by_cases hcur : cs.isSome ∧ ce.isSome
        · rw [if_pos hcur]
          exact ih _ _ _ _ (Or.inl hcur)
        · rw [if_neg hcur]
          rcases hrest with hcur2 | hrest2
          · exact absurd hcur2 hcur
          · exact ih _ _ _ _ (Or.inr hrest2)

/-- C1 is refuted as stated: the response block claiming lines `12-15`
against the single patch range `(10, 20)` has a claimed range that does not
exactly coincide with any patch's `(startLine, endLine)` range, so the claim
requires it to be remapped to `(10, 20)` with a relocation note; but
`parseReview` keeps the claimed range verbatim with no note, because the
source only remaps when the claimed range is not fully contained in a patch
(`withinPatch` tests containment, not coincidence). -/
theorem parseReview_exact_coincidence_counterexample :
    parseReview "12-15:\nbad".data [((10 : Int), 20, ([] : Str))]
      = some [⟨12, 15, "bad\n".data⟩]
    ∧ ¬ ((12 : Int) = 10 ∧ (15 : Int) = 20) := by
  constructor
  · decide
  · decide

/-- C1 (amended): for every response and patch list with the parser-produced
nonnegative ranges, every review flushed by `parseReview` keeps its claimed
range verbatim exactly when the claimed range is CONTAINED in some patch's
range; otherwise it is remapped to the full range of a patch with the
greatest overlap with the mapped-relocation note (which quotes the original
claimed range) prefixed to its comment, and when no patch overlaps at all it
receives the first patch's range with the no-overlap note. -/
theorem parseReview_remap_characterization
    (patches : List PatchTuple) (response : Str) (out : List Review)
    (hp : ∀ p ∈ patches, 0 ≤ p.1 ∧ 0 ≤ p.2.1)
    (hout : parseReview response patches = some out) :
    ∀ r ∈ out, ∃ s e c,
      storeReview patches (some s) (some e) c [] = some [r]
      ∧ ((0 < e - s + 1 ∧ ∃ p ∈ patches, p.1 ≤ s ∧ e ≤ p.2.1) →
          r = ⟨s, e, c⟩)
      ∧ (¬ (0 < e - s + 1 ∧ ∃ p ∈ patches, p.1 ≤ s ∧ e ≤ p.2.1) →
          ((∃ p ∈ patches, 0 < overlapLen s e p.1 p.2.1) →
              ∃ p ∈ patches,
                (∀ q ∈ patches, overlapLen s e q.1 q.2.1 ≤ overlapLen s e p.1 p.2.1)
                ∧ r = ⟨p.1, p.2.1, noteOutsideMapped s e ++ c⟩)
          ∧ ((∀ p ∈ patches, overlapLen s e p.1 p.2.1 ≤ 0) →
              ∀ p0, patches.head? = some p0 →
                r = ⟨p0.1, p0.2.1, noteOutsideNoOverlap s e ++ c⟩)) := by
  intro r hr
  have hprov :=
    parseReviewLines_provenance patches _ none none [] [] out hout r hr
  rcases hprov with hin | ⟨s, e, c, hflush⟩
  · exact absurd hin (List.not_mem_nil r)
  · refine ⟨s, e, c, hflush, ?_, ?_⟩
    · intro hcov
      have hspec := (storeReview_flush_spec patches s e c [] hp).1 hcov
      rw [List.nil_append] at hspec
      have h3 : ([r] : List Review) = [⟨s, e, c⟩] :=
        Option.some.inj (hflush.symm.trans hspec)
      simp only [List.cons.injEq, and_true] at h3
      exact h3
    · intro hnotcov
      have hspec := (storeReview_flush_spec patches s e c [] hp).2 hnotcov
      constructor
      · intro hover
        obtain ⟨p, hpmem, hpmax, hpstore⟩ := hspec.1 hover
        rw [List.nil_append] at hpstore
        have h3 : ([r] : List Review)
            = [⟨p.1, p.2.1, noteOutsideMapped s e ++ c⟩] :=
          Option.some.inj (hflush.symm.trans hpstore)
        simp only [List.cons.injEq, and_true] at h3
        exact ⟨p, hpmem, hpmax, h3⟩
      · intro hnone p0 hp0
        have hfb := (hspec.2 hnone).2 p0 hp0
        rw [List.nil_append] at hfb
        have h3 : ([r] : List Review)
            = [⟨p0.1, p0.2.1, noteOutsideNoOverlap s e ++ c⟩] :=
          Option.some.inj (hflush.symm.trans hfb)
        simp only [List.cons.injEq, and_true] at h3
        exact h3

/-- Witness for C1 (amended) at a concrete input: the block claiming
`18-25` against the single patch `(10, 20)` (overlap 3, not contained) is
remapped to `(10, 20)` with the mapped-relocation note. -/
theorem parseReview_remap_characterization_witness :
    parseReview "18-25:\nx".data [((10 : Int), 20, ([] : Str))]
      = some [⟨10, 20, noteOutsideMapped 18 25 ++ "x\n".data⟩]
    ∧ ∃ s e c,
        storeReview [((10 : Int), 20, ([] : Str))] (some s) (some e) c []
          = some [⟨10, 20, noteOutsideMapped 18 25 ++ "x\n".data⟩] := by
  constructor
  · decide
  · obtain ⟨s, e, c, h1, _, _⟩ :=
      parseReview_remap_characterization [((10 : Int), 20, ([] : Str))]
        "18-25:\nx".data
        [⟨10, 20, noteOutsideMapped 18 25 ++ "x\n".data⟩]
        (by decide) (by decide)
        ⟨10, 20, noteOutsideMapped 18 25 ++ "x\n".data⟩ (by simp)
    exact ⟨s, e, c, h1⟩

/-! ## Reviewer: `generateFileReview` (src/unnamed/part_002:600-753) -/

/-- Result record of `generateFileReview` (interface `FileReviewResult`). -/
structure FileReviewResult where
  reviewCount : Nat
  lgtmCount : Nat
  failures : List Str
  skippedDueToSize : Bool
deriving DecidableEq, Repr

/-- External collaborators of `generateFileReview`, passed as functions:
the tokenizer (`getTokenCount`), the configured request-token ceiling, the
prompt renderer (`prompts.renderReviewFileDiff` as a function of the
accumulated `clonedInputs.patches` text, the other inputs being fixed for
the call), the comment-chain lookup (the value of `commentChain` after the
source's own try/catch), the model call (`bot.chat` response text), and the
two option flags the function reads. -/
structure ReviewEnv where
  tc : Str → Nat
  requestTokens : Nat
  render : Str → Str
  chains : Int → Int → Str
  chat : Str → Str
  reviewCommentLGTM : Bool
  hasPullRequest : Bool

/-- The first loop of `generateFileReview` (lines 617-631): greedily count
how many patches fit the request-token ceiling, stopping at the first
overflow. -/
def packLoop (env : ReviewEnv) : List PatchTuple → Nat → Nat → Nat × Nat
  | [], tokens, patchesToPack => (tokens, patchesToPack)
  | (_, _, patch) :: rest, tokens, patchesToPack =>
    let patchTokens := env.tc patch
    if tokens + patchTokens > env.requestTokens then (tokens, patchesToPack)
    else packLoop env rest (tokens + patchTokens) (patchesToPack + 1)

/-- The second loop of `generateFileReview` (lines 633-695): append up to
`patchesToPack` patches (with their comment chains when they still fit) to
the cloned inputs' patches text.  Returns
`(patchesPacked, tokens, patchesText)`. -/
def buildLoop (env : ReviewEnv) (patchesToPack : Nat) :
    List PatchTuple → Nat → Nat → Str → Nat × Nat × Str
  | [], patchesPacked, tokens, text => (patchesPacked, tokens, text)
  | (startLine, endLine, patch) :: rest, patchesPacked, tokens, text =>
    if !env.hasPullRequest then
      buildLoop env patchesToPack rest patchesPacked tokens text
    else if patchesPacked ≥ patchesToPack then (patchesPacked, tokens, text)
    else
      let commentChain := env.chains startLine endLine
      let commentChainTokens := env.tc commentChain
      let tokens2 := if tokens + commentChainTokens > env.requestTokens
        then tokens else tokens + commentChainTokens
      let commentChain2 := if tokens + commentChainTokens > env.requestTokens
        then [] else commentChain
      let text2 := text ++ "\n".data ++ patch ++ "\n".data
      let text3 := if commentChain2 ≠ [] then
          text2 ++ "\n---comment_chains---\n```\n".data
            ++ commentChain2 ++ "\n```\n".data
        else text2
      let text4 := text3 ++ "\n---end_change_section---\n".data
      buildLoop env patchesToPack rest (patchesPacked + 1) tokens2 text4

/-- The review loop over parsed reviews (lines 721-741): LGTM-style
comments are counted separately unless `reviewCommentLGTM` posts them, all
others increment the review count (and are buffered for submission). -/
def countReviews (env : ReviewEnv) : List Review → Nat × Nat
  | [] => (0, 0)
  | r :: rest =>
    let (rc, lc) := countReviews env rest
    if !env.reviewCommentLGTM
        && (containsStr "LGTM".data r.comment
            || containsStr "looks good to me".data r.comment) then
      (rc, lc + 1)
    else (rc + 1, lc)

/-- Model of `generateFileReview` (src/unnamed/part_002:600-753).  The
returned `Bool` instruments whether `bot.chat` was reached (`true` exactly
when the source performs the model call).  A `parseReview` failure (the
`patches[0]` throw) is caught by the source's try/catch, which pushes a
failure entry interpolating the thrown error and returns zero counts. -/
def generateFileReview (env : ReviewEnv) (filename : Str)
    (patches : List PatchTuple) (initialPatchesText : Str) :
    FileReviewResult × Bool :=
  let tokens0 := env.tc (env.render initialPatchesText)
  let packed := packLoop env patches tokens0 0
  let built := buildLoop env packed.2 patches 0 packed.1 initialPatchesText
  if built.1 = 0 then
    (⟨0, 0, [], true⟩, false)
  else
    let response := env.chat (env.render built.2.2)
    if response = [] then
      (⟨0, 0, [filename ++ " (no response)".data], false⟩, true)
    else
      match parseReview response patches with
      | none => (⟨0, 0, [filename ++ " (error)".data], false⟩, true)
      | some reviews =>
        let counts := countReviews env reviews
        (⟨counts.1, counts.2, [], false⟩, true)

/-- Combined token count of a list of patches. -/
def sumTok (env : ReviewEnv) (l : List PatchTuple) : Nat :=
  (l.map (fun p => env.tc p.2.2)).sum

theorem sumTok_nil (env : ReviewEnv) : sumTok env [] = 0 := rfl

theorem sumTok_cons (env : ReviewEnv) (p : PatchTuple) (l : List PatchTuple) :
    sumTok env (p :: l) = env.tc p.2.2 + sumTok env l := by
  simp [sumTok]

theorem sumTok_take_mono (env : ReviewEnv) (l : List PatchTuple) {i j : Nat}
    (h : i ≤ j) : sumTok env (l.take i) ≤ sumTok env (l.take j) := by
  have heq : l.take i = (l.take j).take i := by
    rw [List.take_take, Nat.min_eq_left h]
  rw [heq]
  unfold sumTok
  exact List.Sublist.sum_le_sum ((List.take_sublist _ _).map _)
    (fun a _ => Nat.zero_le a)

/-- Full characterization of the packing loop, generalized over the running
token count and counter. -/
theorem packLoop_spec (env : ReviewEnv) (l : List PatchTuple)
    (tokens toPack : Nat) :
    ∃ m, m ≤ l.length
      ∧ (packLoop env l tokens toPack).2 = toPack + m
      ∧ (packLoop env l tokens toPack).1 = tokens + sumTok env (l.take m)
      ∧ (0 < m → tokens + sumTok env (l.take m) ≤ env.requestTokens)
      ∧ (m < l.length →
          env.requestTokens < tokens + sumTok env (l.take (m + 1))) := by
  induction l generalizing tokens toPack with
  | nil =>
    refine ⟨0, Nat.le_refl 0, by simp [packLoop], by simp [packLoop, sumTok],
      fun h => absurd h (lt_irrefl 0), fun h => absurd h (lt_irrefl 0)⟩
  | cons p rest ih =>
    obtain ⟨ps, pe, patch⟩ := p
    by_cases hov : tokens + env.tc patch > env.requestTokens
    · refine ⟨0, Nat.zero_le _, ?_, ?_, fun h => absurd h (lt_irrefl 0), ?_⟩
      · simp [packLoop, hov]
      · simp [packLoop, hov, sumTok]
      · intro _
        simp only [List.take_succ_cons, List.take_zero, sumTok_cons, sumTok_nil]
        omega
    · obtain ⟨m2, hle, h2, h1, hfit, hmaxi⟩ :=
        ih (tokens + env.tc patch) (toPack + 1)
      have hstep : packLoop env ((ps, pe, patch) :: rest) tokens toPack
          = packLoop env rest (tokens + env.tc patch) (toPack + 1) := by
        simp [packLoop, hov]
      refine ⟨m2 + 1, by simp; omega, ?_, ?_, ?_, ?_⟩
      · rw [hstep, h2]
        omega
      · rw [hstep, h1]
        simp only [List.take_succ_cons, sumTok_cons]
        omega
      · intro _
        simp only [List.take_succ_cons, sumTok_cons]
        rcases Nat.eq_zero_or_pos m2 with hm0 | hmpos
        · subst hm0
          simp only [List.take_zero, sumTok_nil]
          omega
        · have := hfit hmpos
          omega
      · intro hlt
        simp only [List.length_cons] at hlt
        have := hmaxi (by omega)
        simp only [List.take_succ_cons, sumTok_cons]
        omega

/-- With a zero pack budget the build loop packs nothing. -/
theorem buildLoop_zero (env : ReviewEnv) (l : List PatchTuple)
    (tokens : Nat) (text : Str) :
    (buildLoop env 0 l 0 tokens text).1 = 0 := by
  induction l generalizing tokens text with
  | nil => rfl
  | cons p rest ih =>
    obtain ⟨ps, pe, patch⟩ := p
    simp only [buildLoop]
    by_cases hpr : env.hasPullRequest
    · simp only [hpr, Bool.not_true, Bool.false_eq_true, if_false]
      rw [if_pos (Nat.zero_le 0)]
    · simp only [hpr, Bool.not_false, if_true]
      exact ih tokens text

/-- C2: `generateFileReview` packs exactly the longest prefix of the patch
list whose token total, on top of the prompt-skeleton count, stays at or
below `requestTokens`; the packed total never exceeds the ceiling, packing
stops at the first overflowing patch, and a zero-length packed prefix makes
the function return `skippedDueToSize` with zero counts and no model
call. -/
theorem generateFileReview_token_budget (env : ReviewEnv)
    (filename initialPatchesText : Str) (patches : List PatchTuple) (k : Nat)
    (hk : (packLoop env patches (env.tc (env.render initialPatchesText)) 0).2
      = k) :
    k ≤ patches.length
    ∧ (0 < k → env.tc (env.render initialPatchesText)
        + sumTok env (patches.take k) ≤ env.requestTokens)
    ∧ (∀ j, j ≤ patches.length →
        env.tc (env.render initialPatchesText)
          + sumTok env (patches.take j) ≤ env.requestTokens → j ≤ k)
    ∧ (k < patches.length →
        env.requestTokens < env.tc (env.render initialPatchesText)
          + sumTok env (patches.take (k + 1)))
    ∧ (k = 0 → generateFileReview env filename patches initialPatchesText
        = (⟨0, 0, [], true⟩, false)) := by
  obtain ⟨m, hle, h2, h1, hfit, hmax⟩ :=
    packLoop_spec env patches (env.tc (env.render initialPatchesText)) 0
  rw [hk] at h2
  have hkm : k = m := by omega
  subst hkm
  refine ⟨hle, hfit, ?_, hmax, ?_⟩
  · intro j hj hfits
    by_contra hgt
    push_neg at hgt
    have hkn : k < patches.length := lt_of_lt_of_le hgt hj
    have hover := hmax hkn
    have hmono : sumTok env (patches.take (k + 1))
        ≤ sumTok env (patches.take j) :=
      sumTok_take_mono env patches (by omega)
    omega
  · intro hk0
    subst hk0
    simp only [generateFileReview]
    rw [hk, buildLoop_zero]
    rfl

/-- Review-environment used for concrete packing witnesses: token counts
are string lengths, the prompt renderer is the identity. -/
def packWitnessEnv : ReviewEnv where
  tc := List.length
  requestTokens := 10
  render := id
  chains := fun _ _ => []
  chat := fun _ => "ok".data
  reviewCommentLGTM := false
  hasPullRequest := true

/-- Same environment with a ceiling the skeleton alone already exceeds. -/
def packWitnessEnvTight : ReviewEnv :=
  { packWitnessEnv with requestTokens := 0 }

/-- Patch list used for concrete packing witnesses (token costs 2, 3, 4
under `packWitnessEnv`). -/
def packWitnessPatches : List PatchTuple :=
  [(1, 2, "aa".data), (3, 4, "bbb".data), (5, 6, "cccc".data)]

/-- Witness for C2: on a skeleton of 3 tokens and patches of 2, 3, 4 tokens
against a ceiling of 10, exactly two patches pack (3+2+3 = 8 ≤ 10 while
adding the third reaches 12 > 10), and with a ceiling of 0 the function
skips the file without a model call. -/
theorem generateFileReview_token_budget_witness :
    (packWitnessEnv.tc (packWitnessEnv.render "xyz".data)
        + sumTok packWitnessEnv (packWitnessPatches.take 2)
      ≤ packWitnessEnv.requestTokens)
    ∧ (packWitnessEnv.requestTokens
        < packWitnessEnv.tc (packWitnessEnv.render "xyz".data)
          + sumTok packWitnessEnv (packWitnessPatches.take 3))
    ∧ generateFileReview packWitnessEnvTight "f".data packWitnessPatches
        "xyz".data = (⟨0, 0, [], true⟩, false) := by
  refine ⟨?_, ?_, ?_⟩
  · exact (generateFileReview_token_budget packWitnessEnv "f".data "xyz".data
      packWitnessPatches 2 (by decide)).2.1 (by decide)
  · exact (generateFileReview_token_budget packWitnessEnv "f".data "xyz".data
      packWitnessPatches 2 (by decide)).2.2.2.1 (by decide)
  · exact (generateFileReview_token_budget packWitnessEnvTight "f".data
      "xyz".data packWitnessPatches 0 (by decide)).2.2.2.2 rfl

/-- C10: `parseReview` is total exactly under the non-empty-patch-list
precondition.  (a) With a non-empty patch list it always returns a result,
and (b) every flushed block's final range is either the claimed range or
some patch's range.  (c) With the empty patch list, any response containing
a line-range block reaches the `patches[0]` fallback, which is the
out-of-bounds read (`none` here).  (d) The pipeline maintains the
precondition: `generateFileReview` reaches the model call (and hence the
parse) only when at least one patch was packed, which requires a non-empty
patch list; in particular with zero packed patches it returns
`skippedDueToSize` without calling the model. -/
theorem parseReview_nonempty_precondition :
    (∀ (patches : List PatchTuple) (response : Str), patches ≠ [] →
        (parseReview response patches).isSome)
    ∧ (∀ (patches : List PatchTuple) (s e : Int) (c : Str) (r : Review),
        storeReview patches (some s) (some e) c [] = some [r] →
        (r.startLine = s ∧ r.endLine = e)
        ∨ ∃ p ∈ patches, r.startLine = p.1 ∧ r.endLine = p.2.1)
    ∧ (∀ response : Str,
        (∃ l ∈ splitLines (sanitizeResponse (jsTrim response)),
          (matchLineRange l).isSome) →
        parseReview response [] = none)
    ∧ (∀ (env : ReviewEnv) (filename initialPatchesText : Str)
        (patches : List PatchTuple),
        (generateFileReview env filename patches initialPatchesText).2 = true →
        patches ≠ []) := by
  refine ⟨?_, ?_, ?_, ?_⟩
  · intro patches response hne
    exact parseReviewLines_isSome patches hne _ none none [] []
  · intro patches s e c r h
    simp only [storeReview] at h
    by_cases h1 : (scanPatches s e patches ⟨false, -1, -1, 0⟩).withinPatch = true
    · rw [if_pos h1] at h
      have h3 : ([] : List Review) ++ [(⟨s, e, c⟩ : Review)] = [r] := by
        injection h
      simp only [List.nil_append, List.cons.injEq, and_true] at h3
      rw [← h3]
      exact Or.inl ⟨rfl, rfl⟩
    · rw [if_neg h1] at h
      have hwfalse : (scanPatches s e patches ⟨false, -1, -1, 0⟩).withinPatch
          = false := by
        cases hv : (scanPatches s e patches ⟨false, -1, -1, 0⟩).withinPatch with
        | false => rfl
        | true => exact absurd hv h1
      by_cases h2 : (scanPatches s e patches ⟨false, -1, -1, 0⟩).bestPatchStartLine ≠ -1
          ∧ (scanPatches s e patches ⟨false, -1, -1, 0⟩).bestPatchEndLine ≠ -1
      · rw [if_pos h2] at h
        have h3 : ([] : List Review)
            ++ [(⟨(scanPatches s e patches ⟨false, -1, -1, 0⟩).bestPatchStartLine,
                 (scanPatches s e patches ⟨false, -1, -1, 0⟩).bestPatchEndLine,
                 noteOutsideMapped s e ++ c⟩ : Review)] = [r] := by
          injection h
        simp only [List.nil_append, List.cons.injEq, and_true] at h3
        obtain ⟨⟨hle, hall⟩, hbest⟩ := scanPatches_best s e patches _ hwfalse
        rcases hbest with ⟨hb1, hb2, hb3⟩ | ⟨p, hpmem, hp1, hp2, hp3, hp4⟩
        · exfalso
          apply h2.1
          rw [hb1]
        · refine Or.inr ⟨p, hpmem, ?_, ?_⟩
          · rw [← h3, ← hp1]
          · rw [← h3, ← hp2]
      · rw [if_neg h2] at h
        cases patches with
        | nil => cases h
        | cons p0 rest =>
          obtain ⟨p0s, p0e, p0t⟩ := p0
          rw [List.head?_cons] at h
          have h3 : ([] : List Review)
              ++ [(⟨p0s, p0e, noteOutsideNoOverlap s e ++ c⟩ : Review)]
              = [r] := by
            injection h
          simp only [List.nil_append, List.cons.injEq, and_true] at h3
          refine Or.inr ⟨(p0s, p0e, p0t), List.mem_cons_self _ _, ?_, ?_⟩
          · rw [← h3]
          · rw [← h3]
  · intro response hblock
    exact parseReviewLines_nil_patches_none _ none none [] []
      (Or.inr hblock)
  · intro env filename initialPatchesText patches hcall
    intro hnil
    subst hnil
    simp only [generateFileReview] at hcall
    cases hcall

/-- Witness for C10 at concrete inputs: a non-empty patch list parses any
response; the remapped out-of-range review gets a patch's range; the empty
patch list fails on a response with a range block; and the packing
environment that does call the model has a non-empty patch list. -/
theorem parseReview_nonempty_precondition_witness :
    (parseReview "".data [((10 : Int), 20, ([] : Str))]).isSome
    ∧ (((⟨10, 20, noteOutsideNoOverlap 500 510 ++ "far\n".data⟩ : Review).startLine
          = 500
        ∧ (⟨10, 20, noteOutsideNoOverlap 500 510 ++ "far\n".data⟩ : Review).endLine
          = 510)
      ∨ ∃ p ∈ [((10 : Int), 20, ([] : Str))],
          (⟨10, 20, noteOutsideNoOverlap 500 510 ++ "far\n".data⟩ : Review).startLine
            = p.1
          ∧ (⟨10, 20, noteOutsideNoOverlap 500 510 ++ "far\n".data⟩ : Review).endLine
            = p.2.1)
    ∧ parseReview "1-2:".data [] = none
    ∧ packWitnessPatches ≠ [] := by
  refine ⟨?_, ?_, ?_, ?_⟩
  · exact parseReview_nonempty_precondition.1 [((10 : Int), 20, ([] : Str))]
      "".data (by decide)
  · exact parseReview_nonempty_precondition.2.1 [((10 : Int), 20, ([] : Str))]
      500 510 "far\n".data _ (by decide)
  · exact parseReview_nonempty_precondition.2.2.1 "1-2:".data (by decide)
  · exact parseReview_nonempty_precondition.2.2.2 packWitnessEnv "f".data
      "xyz".data packWitnessPatches (by decide)

/-! ## C3: hunk-header range arithmetic -/

theorem chompLiteral_exact (lit r : Str) :
    chompLiteral lit (lit ++ r) = some r := by
  unfold chompLiteral
  rw [if_pos (List.isPrefixOf_iff_prefix.mpr (List.prefix_append lit r))]
  rw [List.drop_left]

theorem takeDigits_all_digits (a r : Str) (ha : a.all Char.isDigit)
    (hr : ∀ ch, r.head? = some ch → ch.isDigit = false) :
    takeDigits (a ++ r) = (a, r) := by
  induction a with
  | nil =>
    cases r with
    | nil => rfl
    | cons ch rest =>
      have := hr ch rfl
      simp [takeDigits, this]
  | cons ch a2 ih =>
    rw [List.all_cons, Bool.and_eq_true] at ha
    simp [takeDigits, ha.1, ih ha.2]

theorem chomp_headerStart (x : Str) :
    chompLiteral ['@', '@', ' ', '-'] ('@' :: '@' :: ' ' :: '-' :: x) = some x :=
  chompLiteral_exact "@@ -".data x

theorem chomp_spacePlus (x : Str) :
    chompLiteral [' ', '+'] (' ' :: '+' :: x) = some x :=
  chompLiteral_exact " +".data x

theorem chomp_spaceAtAt (x : Str) :
    chompLiteral [' ', '@', '@'] (' ' :: '@' :: '@' :: x) = some x :=
  chompLiteral_exact " @@".data x

theorem chomp_spaceAtAt_end :
    chompLiteral [' ', '@', '@'] [' ', '@', '@'] = some [] :=
  chompLiteral_exact " @@".data []

theorem takeDigits_comma (a r : Str) (ha : a.all Char.isDigit) :
    takeDigits (a ++ ',' :: r) = (a, ',' :: r) :=
  takeDigits_all_digits a (',' :: r) ha
    (fun ch h => by injection h with h; rw [← h]; decide)

theorem takeDigits_space (a r : Str) (ha : a.all Char.isDigit) :
    takeDigits (a ++ ' ' :: r) = (a, ' ' :: r) :=
  takeDigits_all_digits a (' ' :: r) ha
    (fun ch h => by injection h with h; rw [← h]; decide)

/-- The hunk-header matcher on a rendered header extracts exactly the four
rendered groups, an omitted length group reading as the empty string. -/
theorem parseHunkHeaderLine_render (a c : Str) (b d : Option Str)
    (ha1 : a ≠ []) (ha2 : a.all Char.isDigit)
    (hc1 : c ≠ []) (hc2 : c.all Char.isDigit)
    (hb : ∀ s, b = some s → s.all Char.isDigit)
    (hd : ∀ s, d = some s → s.all Char.isDigit) :
    parseHunkHeaderLine (renderHunkHeader a b c d)
      = some (a, b.getD [], c, d.getD []) := by
  have haE : a.isEmpty = false := by
    cases a with
    | nil => exact absurd rfl ha1
    | cons x xs => rfl
  have hcE : c.isEmpty = false := by
    cases c with
    | nil => exact absurd rfl hc1
    | cons x xs => rfl
  have hstart : "@@ -".data = '@' :: '@' :: ' ' :: '-' :: [] := rfl
  have hplus : " +".data = ' ' :: '+' :: [] := rfl
  have hatat : " @@".data = ' ' :: '@' :: '@' :: [] := rfl
  rcases b with _ | bs <;> rcases d with _ | ds
  · simp only [renderHunkHeader, renderLenPart, hstart, hplus, hatat,
      List.cons_append, List.nil_append, List.append_assoc]
    simp [parseHunkHeaderLine, chomp_headerStart, chomp_spacePlus,
      chomp_spaceAtAt, takeDigits_space _ _ ha2, takeDigits_space _ _ hc2,
      haE, hcE, takeDigits, chomp_spaceAtAt_end,
      show ((' ' : Char) = ',') = False by decide, ha1, hc1]
  · have hds : ds.all Char.isDigit := hd ds rfl
    simp only [renderHunkHeader, renderLenPart, hstart, hplus, hatat,
      List.cons_append, List.nil_append, List.append_assoc]
    simp [parseHunkHeaderLine, chomp_headerStart, chomp_spacePlus,
      chomp_spaceAtAt, takeDigits_space _ _ ha2, takeDigits_comma _ _ hc2,
      takeDigits_space _ _ hds, haE, hcE, takeDigits, chomp_spaceAtAt_end,
      show ((' ' : Char) = ',') = False by decide, ha1, hc1]
  · have hbs : bs.all Char.isDigit := hb bs rfl
    simp only [renderHunkHeader, renderLenPart, hstart, hplus, hatat,
      List.cons_append, List.nil_append, List.append_assoc]
    simp [parseHunkHeaderLine, chomp_headerStart, chomp_spacePlus,
      chomp_spaceAtAt, takeDigits_comma _ _ ha2, takeDigits_space _ _ hbs,
      takeDigits_space _ _ hc2, haE, hcE, takeDigits, chomp_spaceAtAt_end,
      show ((' ' : Char) = ',') = False by decide, ha1, hc1]
  · have hbs : bs.all Char.isDigit := hb bs rfl
    have hds : ds.all Char.isDigit := hd ds rfl
    simp only [renderHunkHeader, renderLenPart, hstart, hplus, hatat,
      List.cons_append, List.nil_append, List.append_assoc]
    simp [parseHunkHeaderLine, chomp_headerStart, chomp_spacePlus,
      chomp_spaceAtAt, takeDigits_comma _ _ ha2, takeDigits_space _ _ hbs,
      takeDigits_comma _ _ hc2, takeDigits_space _ _ hds, haE, hcE,
      takeDigits, chomp_spaceAtAt_end,
      show ((' ' : Char) = ',') = False by decide, ha1, hc1]

theorem splitLines_no_newline (s : Str) (h : '\n' ∉ s) : splitLines s = [s] := by
  induction s with
  | nil => rfl
  | cons ch rest ih =>
    have hch : ch ≠ '\n' := fun hc => h (hc ▸ List.mem_cons_self ch rest)
    have hrest : '\n' ∉ rest := fun hm => h (List.mem_cons_of_mem ch hm)
    have hne : ¬ ('\n' :: rest = ch :: rest) := by
      intro hc
      injection hc with hc
      exact hch hc.symm
    simp only [splitLines, ih hrest]
    rfl

theorem all_digits_no_newline (s : Str) (hs : s.all Char.isDigit) :
    '\n' ∉ s := by
  intro hm
  exact absurd (List.all_eq_true.mp hs _ hm) (by decide)

/-- C3: on every hunk header `@@ -a,b +c,d @@` (with either length possibly
omitted), `patchStartEndLine` takes the new-side range from the `+c,d` part
and the old-side range from the `-a,b` part, with
`newEnd - newStart + 1 = max(d, 1)` and `oldEnd - oldStart + 1 = max(b, 1)`
(an omitted length defaulting to 1). -/
theorem patchStartEndLine_header_ranges (a c : Str) (b d : Option Str)
    (ha1 : a ≠ []) (ha2 : a.all Char.isDigit)
    (hc1 : c ≠ []) (hc2 : c.all Char.isDigit)
    (hb : ∀ s, b = some s → s.all Char.isDigit)
    (hd : ∀ s, d = some s → s.all Char.isDigit) :
    ∃ r, patchStartEndLine (renderHunkHeader a b c d) = some r
      ∧ r.newHunk.startLine = jsNumberOfDigits c
      ∧ r.newHunk.endLine - r.newHunk.startLine + 1 = max (lenFieldVal d) 1
      ∧ r.oldHunk.startLine = jsNumberOfDigits a
      ∧ r.oldHunk.endLine - r.oldHunk.startLine + 1 = max (lenFieldVal b) 1 := by
  have hnl : '\n' ∉ renderHunkHeader a b c d := by
    unfold renderHunkHeader
    intro hm
    simp only [List.mem_append] at hm
    rcases hm with (((((hm | hm) | hm) | hm) | hm) | hm) | hm
    · exact absurd hm (by decide)
    · exact all_digits_no_newline a ha2 hm
    · cases hob : b with
      | none =>
        rw [hob] at hm
        cases hm
      | some bs =>
        rw [hob] at hm
        rcases List.mem_cons.mp hm with hc | hm2
        · exact absurd hc (by decide)
        · exact all_digits_no_newline bs (hb bs hob) hm2
    · exact absurd hm (by decide)
    · exact all_digits_no_newline c hc2 hm
    · cases hod : d with
      | none =>
        rw [hod] at hm
        cases hm
      | some ds =>
        rw [hod] at hm
        rcases List.mem_cons.mp hm with hc | hm2
        · exact absurd hc (by decide)
        · exact all_digits_no_newline ds (hd ds hod) hm2
    · exact absurd hm (by decide)
  unfold patchStartEndLine
  rw [splitLines_no_newline _ hnl]
  rw [List.findSome?_cons]
  rw [parseHunkHeaderLine_render a c b d ha1 ha2 hc1 hc2 hb hd]
  refine ⟨_, rfl, rfl, ?_, rfl, ?_⟩
  · cases d with
    | none =>
      show jsNumberOfDigits c + max (jsNumberOfDigits [] - 1) 0
          - jsNumberOfDigits c + 1 = max (lenFieldVal none) 1
      rw [show jsNumberOfDigits [] = 0 from rfl,
        show lenFieldVal none = 1 from rfl]
      omega
    | some ds =>
      show jsNumberOfDigits c + max (jsNumberOfDigits ds - 1) 0
          - jsNumberOfDigits c + 1 = max (lenFieldVal (some ds)) 1
      rw [show lenFieldVal (some ds) = jsNumberOfDigits ds from rfl]
      omega
  · cases b with
    | none =>
      show jsNumberOfDigits a + max (jsNumberOfDigits [] - 1) 0
          - jsNumberOfDigits a + 1 = max (lenFieldVal none) 1
      rw [show jsNumberOfDigits [] = 0 from rfl,
        show lenFieldVal none = 1 from rfl]
      omega
    | some bs =>
      show jsNumberOfDigits a + max (jsNumberOfDigits bs - 1) 0
          - jsNumberOfDigits a + 1 = max (lenFieldVal (some bs)) 1
      rw [show lenFieldVal (some bs) = jsNumberOfDigits bs from rfl]
      omega

/-- Witness for C3 at the concrete header `@@ -5,3 +7,4 @@`. -/
theorem patchStartEndLine_header_ranges_witness :
    ∃ r, patchStartEndLine
        (renderHunkHeader "5".data (some "3".data) "7".data (some "4".data))
        = some r
      ∧ r.newHunk.startLine = jsNumberOfDigits "7".data
      ∧ r.newHunk.endLine - r.newHunk.startLine + 1
          = max (lenFieldVal (some "4".data)) 1
      ∧ r.oldHunk.startLine = jsNumberOfDigits "5".data
      ∧ r.oldHunk.endLine - r.oldHunk.startLine + 1
          = max (lenFieldVal (some "3".data)) 1 :=
  patchStartEndLine_header_ranges "5".data "7".data (some "3".data)
    (some "4".data) (by decide) (by decide) (by decide) (by decide)
    (fun s h => by injection h with h; rw [← h]; decide)
    (fun s h => by injection h with h; rw [← h]; decide)

/-! ## PatchParser: `splitPatch` (src/unnamed/part_002:361-385) -/

/-- Matcher for `splitPatch`'s stricter header pattern
`^@@ -(\d+),(\d+) \+(\d+),(\d+) @@` (both lengths required, commas
mandatory) tested at a line start; the trailing `.*$` of the source pattern
matches the rest of the line unconditionally and imposes nothing. -/
def isSplitHeader (s : Str) : Bool :=
  match chompLiteral "@@ -".data s with
  | none => false
  | some r1 =>
    let (g1, r2) := takeDigits r1
    if g1.isEmpty then false else
    match r2 with
    | ',' :: r3 =>
      let (g2, r4) := takeDigits r3
      if g2.isEmpty then false else
      match chompLiteral " +".data r4 with
      | none => false
      | some r5 =>
        let (g3, r6) := takeDigits r5
        if g3.isEmpty then false else
        match r6 with
        | ',' :: r7 =>
          let (g4, r8) := takeDigits r7
          if g4.isEmpty then false else (chompLiteral " @@".data r8).isSome
        | _ => false
    | _ => false

/-- Offsets of the header matches found by the `pattern.exec` loop: the `m`
flag anchors `^` at offset 0 and right after every newline, and each match
consumes to the end of its line, so the recorded `match.index` values are
exactly the line-start offsets whose line begins with the header pattern. -/
def headerIndicesGo : Str → Nat → Bool → List Nat
  | [], _, _ => []
  | c :: cs, i, atLineStart =>
    (if atLineStart && isSplitHeader (c :: cs) then [i] else [])
      ++ headerIndicesGo cs (i + 1) (c = '\n')

/-- All header-match offsets of a patch string. -/
def headerIndices (p : Str) : List Nat :=
  headerIndicesGo p 0 true

/-- The segment extraction of `splitPatch`: each hunk is
`patch.substring(last, next)` and the final hunk is
`patch.substring(last)`. -/
def segsFrom (p : Str) : Nat → List Nat → List Str
  | last, [] => [p.drop last]
  | last, j :: rest => ((p.drop last).take (j - last)) :: segsFrom p j rest

/-- Model of `splitPatch` (src/unnamed/part_002:361-385): `null` input gives
no hunks, otherwise the text is cut at each recorded header offset starting
from the first one (text before the first header is not part of any
segment). -/
def splitPatch (patch : Option Str) : List Str :=
  match patch with
  | none => []
  | some p =>
    match headerIndices p with
    | [] => []
    | i0 :: rest => segsFrom p i0 rest

theorem headerIndicesGo_mem_ge (cs : Str) (i : Nat) (b : Bool) :
    ∀ j ∈ headerIndicesGo cs i b, i ≤ j := by
  induction cs generalizing i b with
  | nil => intro j hj; cases hj
  | cons c rest ih =>
    intro j hj
    simp only [headerIndicesGo, List.mem_append] at hj
    rcases hj with hj | hj
    · by_cases hcond : b && isSplitHeader (c :: rest)
      · rw [if_pos hcond] at hj
        rw [List.mem_singleton.mp hj]
      · rw [if_neg hcond] at hj
        cases hj
    · exact Nat.le_of_succ_le (ih (i + 1) (c = '\n') j hj)

theorem headerIndicesGo_chain (cs : Str) (i : Nat) (b : Bool) :
    List.Chain' (· < ·) (headerIndicesGo cs i b) := by
  induction cs generalizing i b with
  | nil => exact List.chain'_nil
  | cons c rest ih =>
    simp only [headerIndicesGo]
    by_cases hcond : b && isSplitHeader (c :: rest)
    · rw [if_pos hcond]
      rw [List.singleton_append]
      rw [List.chain'_cons']
      constructor
      · intro y hy
        have hmem := List.mem_of_mem_head? hy
        exact lt_of_lt_of_le (Nat.lt_succ_self i)
          (headerIndicesGo_mem_ge rest (i + 1) (c = '\n') y hmem)
      · exact ih (i + 1) (c = '\n')
    · rw [if_neg hcond, List.nil_append]
      exact ih (i + 1) (c = '\n')

theorem segsFrom_flatten (p : Str) (last : Nat) (idxs : List Nat)
    (hchain : List.Chain (· < ·) last idxs) :
    (segsFrom p last idxs).flatten = p.drop last := by
  induction idxs generalizing last with
  | nil => simp [segsFrom]
  | cons j rest ih =>
    obtain ⟨hlt, hchain2⟩ := List.chain_cons.mp hchain
    simp only [segsFrom, List.flatten_cons, ih j hchain2]
    rw [show p.drop j = (p.drop last).drop (j - last) by
      rw [List.drop_drop]
      congr 1
      omega]
    exact List.take_append_drop _ _

/-- Suffixes of a string that begin at a line start: the string itself and
the text after each newline.  These are the candidate match positions of a
`^`-anchored multiline pattern. -/
def lineStartSuffixesGo : Str → List Str
  | [] => []
  | c :: cs => (if c = '\n' then [cs] else []) ++ lineStartSuffixesGo cs

/-- All line-start suffixes, the string itself included. -/
def lineStartSuffixes (p : Str) : List Str :=
  p :: lineStartSuffixesGo p

theorem headerIndicesGo_nil_of_no_header (cs : Str) (i : Nat) (b : Bool)
    (h1 : b = true → isSplitHeader cs = false)
    (h2 : ∀ s ∈ lineStartSuffixesGo cs, isSplitHeader s = false) :
    headerIndicesGo cs i b = [] := by
  induction cs generalizing i b with
  | nil => rfl
  | cons c rest ih =>
    simp only [headerIndicesGo]
    have hcond : (b && isSplitHeader (c :: rest)) = false := by
      cases b with
      | false => rfl
      | true => rw [Bool.true_and]; exact h1 rfl
    rw [hcond]
    simp only [Bool.false_eq_true, if_false, List.nil_append]
    refine ih (i + 1) (c = '\n') ?_ ?_
    · intro hc
      apply h2
      simp only [lineStartSuffixesGo, List.mem_append]
      left
      rw [if_pos (of_decide_eq_true hc)]
      exact List.mem_singleton_self rest
    · intro s hs
      apply h2
      simp only [lineStartSuffixesGo, List.mem_append]
      right
      exact hs

/-- C4 counterexample: the claim is not true of every unified-diff patch
string.  `splitPatch`'s pattern demands the full `@@ -a,b +c,d @@` form
with both lengths and commas present, while unified diffs may omit a
length of 1 (`@@ -1 +1 @@`).  On a patch whose first hunk header uses the
short form and whose second uses the full form, the first recorded match
offset is the second header's, so the whole leading hunk is dropped and
concatenating the segments does not reconstruct the patch; a patch whose
headers are all short-form yields zero hunks outright. -/
theorem splitPatch_lossless_counterexample :
    splitPatch (some "@@ -1 +1 @@\n+a\n@@ -2,2 +3,4 @@\n+b".data)
        = ["@@ -2,2 +3,4 @@\n+b".data]
      ∧ (splitPatch (some "@@ -1 +1 @@\n+a\n@@ -2,2 +3,4 @@\n+b".data)).flatten
        ≠ "@@ -1 +1 @@\n+a\n@@ -2,2 +3,4 @@\n+b".data
      ∧ splitPatch (some "@@ -1 +1 @@\n+a\n@@ -2 +2 @@\n+b".data) = [] := by
  decide

/-- C4 (corrected): hunk splitting is lossless exactly on the patches the
splitter recognizes from the start — for a patch string that begins with a
full-form hunk header `@@ -a,b +c,d @@`, concatenating all segments
produced by `splitPatch` reconstructs the string (later short-form headers
are simply kept inside the preceding segment); and a patch with no
full-form hunk header at any line start yields zero hunks.  Text before
the first full-form header is dropped, as the counterexample shows. -/
theorem splitPatch_lossless :
    (∀ p : Str, isSplitHeader p = true →
        (splitPatch (some p)).flatten = p)
    ∧ (∀ p : Str, (∀ s ∈ lineStartSuffixes p, isSplitHeader s = false) →
        splitPatch (some p) = []) := by
  constructor
  · intro p hp
    cases p with
    | nil => exact absurd hp (by decide)
    | cons c cs =>
      have hidx : headerIndices (c :: cs)
          = 0 :: headerIndicesGo cs 1 (c = '\n') := by
        unfold headerIndices
        simp only [headerIndicesGo]
        rw [Bool.true_and, hp]
        simp
      have hchain : List.Chain (· < ·) 0 (headerIndicesGo cs 1 (c = '\n')) := by
        have h2 := headerIndicesGo_chain (c :: cs) 0 true
        rw [show headerIndicesGo (c :: cs) 0 true
            = 0 :: headerIndicesGo cs 1 (c = '\n') from hidx] at h2
        exact h2
      have hsplit : splitPatch (some (c :: cs))
          = segsFrom (c :: cs) 0 (headerIndicesGo cs 1 (c = '\n')) := by
        simp only [splitPatch]
        rw [hidx]
      rw [hsplit, segsFrom_flatten _ _ _ hchain]
      rfl
  · intro p hnone
    have hempty : headerIndices p = [] := by
      unfold headerIndices
      apply headerIndicesGo_nil_of_no_header
      · intro _
        exact hnone p (List.mem_cons_self _ _)
      · intro s hs
        exact hnone s (List.mem_cons_of_mem _ hs)
    simp [splitPatch, hempty]

/-- Witness for C4: a two-hunk patch body is reassembled verbatim, and a
binary-diff placeholder with no header yields zero hunks. -/
theorem splitPatch_lossless_witness :
    (splitPatch (some "@@ -1,2 +3,4 @@\n a\n-b\n+c\n@@ -8,1 +9,2 @@\n+y".data)).flatten
      = "@@ -1,2 +3,4 @@\n a\n-b\n+c\n@@ -8,1 +9,2 @@\n+y".data
    ∧ splitPatch (some "Binary files a/x and b/x differ".data) = [] := by
  constructor
  · exact splitPatch_lossless.1
      "@@ -1,2 +3,4 @@\n a\n-b\n+c\n@@ -8,1 +9,2 @@\n+y".data (by decide)
  · exact splitPatch_lossless.2 "Binary files a/x and b/x differ".data
      (by decide)

/-! ## CommentParser (src/src/github/comment-parser.ts) -/

/-- The delimiter constants from src/src/github/comment-tags.ts. -/
def COMMIT_ID_START_TAG : Str := "<!-- commit_ids_reviewed_start -->".data

/-- End delimiter of the reviewed-commit-ids block. -/
def COMMIT_ID_END_TAG : Str := "<!-- commit_ids_reviewed_end -->".data

/-- Model of JS `s.split('<!--')`: cut at each non-overlapping occurrence of
the comment opener, scanning left to right. -/
def splitOnCommentOpen : Str → List Str
  | [] => [[]]
  | '<' :: '!' :: '-' :: '-' :: rest => [] :: splitOnCommentOpen rest
  | c :: rest => (splitOnCommentOpen rest).modifyHead (c :: ·)

/-- Model of `getReviewedCommitIds` (comment-parser.ts:79-90): locate the
delimiter tags, split the text between them on `<!--`, strip the first
`-->` from each piece, trim, and drop empties.  (When the first end tag
precedes the first start tag, the JS `substring` swaps its arguments;
`jsSubstring` reproduces that.) -/
def getReviewedCommitIds (commentBody : Str) : List Str :=
  match firstIndexOf COMMIT_ID_START_TAG commentBody,
      firstIndexOf COMMIT_ID_END_TAG commentBody with
  | some s, some e =>
    let ids := jsSubstring commentBody (s + COMMIT_ID_START_TAG.length) e
    ((splitOnCommentOpen ids).map
      (fun id => jsTrim (replaceFirst "-->".data [] id))).filter (· ≠ [])
  | _, _ => []

/-- Model of `addReviewedCommitId` (comment-parser.ts:101-112). -/
def addReviewedCommitId (commentBody commitId : Str) : Str :=
  match firstIndexOf COMMIT_ID_START_TAG commentBody,
      firstIndexOf COMMIT_ID_END_TAG commentBody with
  | some s, some e =>
    let ids := jsSubstring commentBody (s + COMMIT_ID_START_TAG.length) e
    jsSubstring commentBody 0 (s + COMMIT_ID_START_TAG.length)
      ++ ids ++ "<!-- ".data ++ commitId ++ " -->\n".data
      ++ commentBody.drop e
  | _, _ =>
    commentBody ++ "\n".data ++ COMMIT_ID_START_TAG ++ "\n<!-- ".data
      ++ commitId ++ " -->\n".data ++ COMMIT_ID_END_TAG

/-- Model of `getHighestReviewedCommitId` (comment-parser.ts:114-124): the
source iterates `commitIds` from the last index down and returns the first
member of `reviewedCommitIds` it meets, or the empty string; that downward
loop is `find?` over the reversed list. -/
def getHighestReviewedCommitId (commitIds reviewedCommitIds : List Str) :
    Str :=
  match commitIds.reverse.find? (fun c => reviewedCommitIds.contains c) with
  | some c => c
  | none => []

/-- Model of the watermark fallback in
`ReviewOrchestrator.orchestrateReview` (review-orchestrator.ts:86-104): the
highest reviewed commit id is computed only when a commit-ids block exists,
and the diff starts from the PR base exactly when that result is empty or
equals the current head SHA. -/
def watermarkStartCommit (existingCommitIdsBlock : Str)
    (allCommitIds : List Str) (headSha baseSha : Str) : Str :=
  let highest := if existingCommitIdsBlock ≠ [] then
      getHighestReviewedCommitId allCommitIds
        (getReviewedCommitIds existingCommitIdsBlock)
    else []
  if highest = [] ∨ highest = headSha then baseSha else highest

/-- C5: `getHighestReviewedCommitId` returns the element of `commitIds`
with the highest index that occurs in `reviewedCommitIds` (phrased as a
decomposition `pre ++ c :: post` where nothing after `c` is reviewed), or
the empty string when none occurs; and the orchestrator starts the review
diff from the PR base commit exactly when that result is empty or equals
the head SHA, and otherwise from the returned commit. -/
theorem watermark_highest_and_fallback :
    (∀ commitIds reviewedCommitIds : List Str,
      (getHighestReviewedCommitId commitIds reviewedCommitIds = []
          ∧ ∀ c ∈ commitIds, reviewedCommitIds.contains c = false)
      ∨ (∃ pre c post, commitIds = pre ++ c :: post
          ∧ reviewedCommitIds.contains c = true
          ∧ getHighestReviewedCommitId commitIds reviewedCommitIds = c
          ∧ ∀ x ∈ post, reviewedCommitIds.contains x = false))
    ∧ (∀ (block : Str) (allCommitIds : List Str) (headSha baseSha hi : Str),
        hi = (if block ≠ [] then
            getHighestReviewedCommitId allCommitIds
              (getReviewedCommitIds block)
          else []) →
        ((hi = [] ∨ hi = headSha) →
          watermarkStartCommit block allCommitIds headSha baseSha = baseSha)
        ∧ (¬ (hi = [] ∨ hi = headSha) →
          watermarkStartCommit block allCommitIds headSha baseSha = hi)) := by
  constructor
  · intro commitIds reviewedCommitIds
    cases hf : commitIds.reverse.find? (fun c => reviewedCommitIds.contains c)
      with
    | none =>
      left
      constructor
      · unfold getHighestReviewedCommitId
        rw [hf]
      · intro c hc
        have := List.find?_eq_none.mp hf c (List.mem_reverse.mpr hc)
        simpa using this
    | some c =>
      right
      obtain ⟨hpred, as, bs, hsplit, hfail⟩ := List.find?_eq_some.mp hf
      refine ⟨bs.reverse, c, as.reverse, ?_, hpred, ?_, ?_⟩
      · have : commitIds.reverse.reverse = (as ++ c :: bs).reverse := by
          rw [hsplit]
        rw [List.reverse_reverse] at this
        rw [this, List.reverse_append, List.reverse_cons, List.append_assoc,
          List.singleton_append]
      · unfold getHighestReviewedCommitId
        rw [hf]
      · intro x hx
        have := hfail x (List.mem_reverse.mp hx)
        simpa using this
  · intro block allCommitIds headSha baseSha hi hhi
    subst hhi
    constructor
    · intro hcond
      unfold watermarkStartCommit
      rw [if_pos hcond]
    · intro hcond
      unfold watermarkStartCommit
      rw [if_neg hcond]

/-- Reviewed-commit-ids block recording only `c1`. -/
def wmBlockC1 : Str :=
  COMMIT_ID_START_TAG ++ "\n<!-- c1 -->\n".data ++ COMMIT_ID_END_TAG

/-- Reviewed-commit-ids block recording only `c3`. -/
def wmBlockC3 : Str :=
  COMMIT_ID_START_TAG ++ "\n<!-- c3 -->\n".data ++ COMMIT_ID_END_TAG

/-- Witness for C5: with commits `[c1, c2, c3]`, head `c3` and recorded
reviewed commits `[c1]` the diff starts from `c1`; with recorded `[c3]`
(the head itself) it starts from the base commit. -/
theorem watermark_highest_and_fallback_witness :
    watermarkStartCommit wmBlockC1
        ["c1".data, "c2".data, "c3".data] "c3".data "base".data = "c1".data
    ∧ watermarkStartCommit wmBlockC3
        ["c1".data, "c2".data, "c3".data] "c3".data "base".data
      = "base".data := by
  constructor
  · exact (watermark_highest_and_fallback.2 wmBlockC1
      ["c1".data, "c2".data, "c3".data] "c3".data "base".data "c1".data
      (by decide)).2 (by decide)
  · exact (watermark_highest_and_fallback.2 wmBlockC3
      ["c1".data, "c2".data, "c3".data] "c3".data "base".data "c3".data
      (by decide)).1 (by decide)

/-! ## ChatBot and providers: the blank-message guard (C9) -/

/-- Conversation state threaded through the chat calls
(src/src/bot/providers/ai-provider.ts). -/
structure ConversationState where
  parentMessageId : Option Str
  conversationId : Option Str
  provider : Option Str
deriving DecidableEq, Repr

/-- Model of `ChatBot.chat` (src/src/bot/chat-bot.ts:28-44): a message that
is empty after `trim` returns `['', state]` before `executeChat` (the only
path that performs a network call) is reached; the collaborator
`executeChat` covers the try/catch and network behavior of the non-blank
path.  The `Bool` instruments whether `executeChat` was invoked. -/
def chatBotChat
    (executeChat : Str → ConversationState → Str × ConversationState)
    (message : Str) (state : ConversationState) :
    (Str × ConversationState) × Bool :=
  if (jsTrim message).isEmpty then (([], state), false)
  else (executeChat message state, true)

/-- Model of `OpenAIProvider.chat` (src/unnamed/part_000:30-48), whose
blank-message guard is identical to `ChatBot.chat`. -/
def openAIProviderChat
    (executeChat : Str → ConversationState → Str × ConversationState)
    (message : Str) (state : ConversationState) :
    (Str × ConversationState) × Bool :=
  if (jsTrim message).isEmpty then (([], state), false)
  else (executeChat message state, true)

/-- Model of `GeminiProvider.chat` (src/src/bot/chat-bot.ts:176-190 of the
bundled Gemini provider), with the same guard. -/
def geminiProviderChat
    (executeChat : Str → ConversationState → Str × ConversationState)
    (message : Str) (state : ConversationState) :
    (Str × ConversationState) × Bool :=
  if (jsTrim message).isEmpty then (([], state), false)
  else (executeChat message state, true)

theorem jsTrim_all_ws (s : Str) (h : s.all isJsWs = true) : jsTrim s = [] := by
  have h1 : s.dropWhile isJsWs = [] :=
    List.dropWhile_eq_nil_iff.mpr (fun x hx => List.all_eq_true.mp h x hx)
  unfold jsTrim
  rw [h1]
  rfl

/-- C9: for every conversation state and every message that is empty or
consists only of whitespace, each chat entry point returns `('', state)`
with the state unchanged and without invoking the underlying client. -/
theorem chat_blank_message_no_network
    (executeChat : Str → ConversationState → Str × ConversationState)
    (message : Str) (state : ConversationState)
    (h : message.all isJsWs = true) :
    chatBotChat executeChat message state = (([], state), false)
    ∧ openAIProviderChat executeChat message state = (([], state), false)
    ∧ geminiProviderChat executeChat message state = (([], state), false) := by
  have ht : jsTrim message = [] := jsTrim_all_ws message h
  refine ⟨?_, ?_, ?_⟩ <;>
    simp [chatBotChat, openAIProviderChat, geminiProviderChat, ht]

/-- Witness for C9 on the whitespace-only message `"  \n"`. -/
theorem chat_blank_message_no_network_witness :
    chatBotChat (fun m st => (m, st)) "  \n".data
        ⟨none, none, none⟩ = (([], ⟨none, none, none⟩), false)
    ∧ openAIProviderChat (fun m st => (m, st)) "  \n".data
        ⟨none, none, none⟩ = (([], ⟨none, none, none⟩), false)
    ∧ geminiProviderChat (fun m st => (m, st)) "  \n".data
        ⟨none, none, none⟩ = (([], ⟨none, none, none⟩), false) :=
  chat_blank_message_no_network (fun m st => (m, st)) "  \n".data
    ⟨none, none, none⟩ (by decide)

/-! ## SuggestionExtractor (src/unnamed/part_002:474-583, part_001) -/

/-- The `Suggestion` record (src/unnamed/part_001). -/
structure Suggestion where
  path : Str
  startLine : Int
  endLine : Int
  replacement : Str
  title : Option Str
  confidence : Option Str
  rationale : Str
deriving DecidableEq, Repr

/-- Result record of `extractSuggestion`. -/
structure SuggestionExtractionResult where
  comment : Str
  suggestion : Option Suggestion
deriving DecidableEq, Repr

/-- The caller-supplied defaults of `extractSuggestion`. -/
structure SuggestDefaults where
  path : Str
  startLine : Int
  endLine : Int

/-- Case-insensitive prefix test (the `i` flag of the suggestion regex). -/
def ciPrefix : Str → Str → Bool
  | [], _ => true
  | _ :: _, [] => false
  | p :: ps, c :: cs => (p.toLower = c.toLower) && ciPrefix ps cs

/-- JS `\w`: ASCII letters, digits, or underscore. -/
def isWordChar (c : Char) : Bool :=
  c.isAlphanum || c = '_'

/-- First case-insensitive occurrence of `needle`. -/
def firstIndexOfCI (needle : Str) : Str → Option Nat
  | [] => if needle.isEmpty then some 0 else none
  | c :: rest =>
    if ciPrefix needle (c :: rest) then some 0
    else (firstIndexOfCI needle rest).map (· + 1)

/-- Attempt to match `<SUGGEST\b([^>]*)>([\s\S]*?)<\/SUGGEST>` (flag `i`)
at one fixed position: the case-insensitive opener, a word boundary, the
greedy non-`>` attribute run closed by `>`, then the lazy body up to the
first case-insensitive closer.  Returns the total match length with the two
capture groups. -/
def suggestMatchAt (s : Str) : Option (Nat × Str × Str) :=
  if ciPrefix "<suggest".data s then
    let after8 := s.drop 8
    let boundaryOk := match after8.head? with
      | none => true
      | some c => !(isWordChar c)
    if boundaryOk then
      let attrs := after8.takeWhile (· ≠ '>')
      match after8.drop attrs.length with
      | '>' :: afterGt =>
        match firstIndexOfCI "</suggest>".data afterGt with
        | some k =>
          some (8 + attrs.length + 1 + k + 10, attrs, afterGt.take k)
        | none => none
      | _ => none
    else none
  else none

/-- Model of `markdown.match(suggestRegex)`: the engine returns the match
at the leftmost position where the whole pattern (closer included)
succeeds.  Returns `(match0, attrs, body)`. -/
def findSuggestMatch : Str → Option (Str × Str × Str)
  | [] => none
  | c :: rest =>
    match suggestMatchAt (c :: rest) with
    | some (len, attrs, body) => some ((c :: rest).take len, attrs, body)
    | none => findSuggestMatch rest

/-- One attribute-value alternative of `parseAttributes`:
`"([^"]*)"` or `'([^']*)'` or a bare `[^\s"'>]+` run. -/
def attrValue (s : Str) : Option (Str × Str) :=
  match s with
  | '"' :: rest =>
    let v := rest.takeWhile (· ≠ '"')
    match rest.drop v.length with
    | '"' :: r2 => some (v, r2)
    | _ => none
  | '\'' :: rest =>
    let v := rest.takeWhile (· ≠ '\'')
    match rest.drop v.length with
    | '\'' :: r2 => some (v, r2)
    | _ => none
  | _ =>
    let v := s.takeWhile (fun c => !(isJsWs c || c = '"' || c = '\'' || c = '>'))
    if v.isEmpty then none else some (v, s.drop v.length)

/-- Attempt to match one `(\w[\w-]*)\s*=\s*value` attribute at a fixed
position, returning the key-value pair and the text after the match. -/
def attrMatchAt (s : Str) : Option ((Str × Str) × Str) :=
  match s with
  | [] => none
  | c :: rest =>
    if isWordChar c then
      let keyRest := rest.takeWhile (fun ch => isWordChar ch || ch = '-')
      let afterKey := (rest.drop keyRest.length).dropWhile isJsWs
      match afterKey with
      | '=' :: afterEq =>
        match attrValue (afterEq.dropWhile isJsWs) with
        | some (v, remaining) => some ((c :: keyRest, v), remaining)
        | none => none
      | _ => none
    else none

/-- The `attrRegex.exec` loop of `parseAttributes`
(src/unnamed/part_002:537-550), scanning left to right and resuming after
each match.  Every match consumes at least two characters, so
`fuel := input.length + 1` is never exhausted. -/
def parseAttributesGo : Nat → Str → List (Str × Str)
  | 0, _ => []
  | _, [] => []
  | fuel + 1, c :: rest =>
    match attrMatchAt (c :: rest) with
    | some (kv, remaining) => kv :: parseAttributesGo fuel remaining
    | none => parseAttributesGo fuel rest

/-- Model of `parseAttributes`, as the association list of matches in
order. -/
def parseAttributes (input : Str) : List (Str × Str) :=
  parseAttributesGo (input.length + 1) input

/-- JS object indexing on the built attribute record: a later assignment
to the same key overwrites an earlier one, so the last match wins. -/
def attrsGet (attrs : List (Str × Str)) (key : Str) : Option Str :=
  match attrs.reverse.find? (fun kv => kv.1 == key) with
  | some kv => some kv.2
  | none => none

/-- Model of `sanitizeReplacement` (src/unnamed/part_002:552-559): empty
input stays empty; otherwise the leading whitespace run
(`/^\s*\n?/`) and the trailing whitespace run (`/\s*$/`) are stripped, and
a result still containing a triple backtick is rejected as malformed. -/
def sanitizeReplacement (raw : Str) : Str :=
  if raw.isEmpty then []
  else
    let trimmed := jsTrim raw
    if containsStr "```".data trimmed then [] else trimmed

/-- Model of `stripSuggestionBlock` (src/unnamed/part_002:561-563). -/
def stripSuggestionBlock (comment block : Str) : Str :=
  jsTrim (replaceFirst block [] comment)

/-- Model of `parseInt(raw, 10)`: skip leading whitespace, optional sign,
then a non-empty digit run (`none` is JS `NaN`). -/
def jsParseInt (raw : Str) : Option Int :=
  let t := raw.dropWhile isJsWs
  match t with
  | '-' :: r =>
    let (ds, _) := takeDigits r
    if ds.isEmpty then none else some (-(natOfDigits ds : Int))
  | '+' :: r =>
    let (ds, _) := takeDigits r
    if ds.isEmpty then none else some (natOfDigits ds : Int)
  | r =>
    let (ds, _) := takeDigits r
    if ds.isEmpty then none else some (natOfDigits ds : Int)

/-- Model of `parseLineNumber` (src/unnamed/part_002:565-572). -/
def parseLineNumber (raw : Option Str) (fallback : Int) : Int :=
  match raw with
  | none => fallback
  | some r =>
    if r.isEmpty then fallback
    else
      match jsParseInt r with
      | none => fallback
      | some v => if v > 0 then v else fallback

/-- Model of `normalizeConfidence` (src/unnamed/part_002:574-583). -/
def normalizeConfidence (raw : Option Str) : Option Str :=
  match raw with
  | none => none
  | some r =>
    if r.isEmpty then none
    else
      let n := (jsTrim r).map Char.toLower
      if n = "high".data ∨ n = "med".data ∨ n = "low".data then some n
      else none

/-- Model of `extractSuggestion` (src/unnamed/part_002:481-535). -/
def extractSuggestion (markdown : Str) (defaults : SuggestDefaults) :
    SuggestionExtractionResult :=
  match findSuggestMatch markdown with
  | none => { comment := jsTrim markdown, suggestion := none }
  | some (match0, rawAttributes, rawReplacement) =>
    let attrs := parseAttributes rawAttributes
    let replacement := sanitizeReplacement rawReplacement
    if replacement.isEmpty then
      { comment := stripSuggestionBlock markdown match0, suggestion := none }
    else
      let startLine := parseLineNumber
        ((attrsGet attrs "start".data).orElse fun _ =>
          (attrsGet attrs "start_line".data).orElse fun _ =>
            attrsGet attrs "line".data) defaults.startLine
      let endLine := parseLineNumber
        ((attrsGet attrs "end".data).orElse fun _ =>
          (attrsGet attrs "end_line".data).orElse fun _ =>
            attrsGet attrs "line".data) defaults.endLine
      let path := match attrsGet attrs "path".data with
        | some p => if (jsTrim p).length > 0 then jsTrim p else defaults.path
        | none => defaults.path
      let comment := stripSuggestionBlock markdown match0
      { comment := comment
        suggestion := some
          { path := path
            startLine := startLine
            endLine := endLine
            replacement := replacement
            title := (attrsGet attrs "title".data).map jsTrim
            confidence := normalizeConfidence (attrsGet attrs "confidence".data)
            rationale := comment } }

theorem firstIndexOf_isSome_iff (needle hay : Str) :
    (firstIndexOf needle hay).isSome = true ↔ ∃ u v, hay = u ++ needle ++ v := by
  induction hay with
  | nil =>
    constructor
    · intro h
      cases hne : needle with
      | nil => exact ⟨[], [], rfl⟩
      | cons nc ncs =>
        rw [hne] at h
        simp [firstIndexOf] at h
    · rintro ⟨u, v, huv⟩
      have hu : u = [] := by
        cases u with
        | nil => rfl
        | cons x xs => cases huv
      subst hu
      have hn : needle = [] := by
        cases hne : needle with
        | nil => rfl
        | cons x xs =>
          rw [hne] at huv
          cases huv
      subst hn
      simp [firstIndexOf]
  | cons c rest ih =>
    by_cases hp : needle.isPrefixOf (c :: rest)
    · simp only [firstIndexOf, if_pos hp]
      constructor
      · intro _
        obtain ⟨v, hv⟩ := List.isPrefixOf_iff_prefix.mp hp
        exact ⟨[], v, by rw [← hv]; rfl⟩
      · intro _
        rfl
    · simp only [firstIndexOf, if_neg hp]
      have hmap : (Option.map (fun x => x + 1) (firstIndexOf needle rest)).isSome
          = (firstIndexOf needle rest).isSome := by
        cases firstIndexOf needle rest <;> rfl
      rw [hmap, ih]
      constructor
      · rintro ⟨u, v, huv⟩
        exact ⟨c :: u, v, by rw [huv]; simp [List.append_assoc]⟩
      · rintro ⟨u, v, huv⟩
        cases u with
        | nil =>
          exfalso
          apply hp
          rw [List.nil_append] at huv
          exact List.isPrefixOf_iff_prefix.mpr ⟨v, huv.symm⟩
        | cons x xs =>
          injection huv with h1 h2
          exact ⟨xs, v, h2⟩

theorem dropWhile_append_infix (p : Char → Bool) (u w v : Str) (hw : w ≠ [])
    (hhead : ∀ c, w.head? = some c → p c = false) :
    ∃ u2, List.dropWhile p (u ++ w ++ v) = u2 ++ w ++ v := by
  induction u with
  | nil =>
    cases w with
    | nil => exact absurd rfl hw
    | cons wc wrest =>
      refine ⟨[], ?_⟩
      simp only [List.nil_append, List.cons_append, List.dropWhile_cons]
      rw [hhead wc rfl]
      simp
  | cons c u2 ih =>
    simp only [List.cons_append, List.dropWhile_cons]
    cases hpc : p c with
    | true =>
      simpa using ih
    | false =>
      exact ⟨c :: u2, by simp⟩

theorem containsStr_jsTrim (needle s : Str) (hne : needle ≠ [])
    (hns : ∀ ch ∈ needle, isJsWs ch = false)
    (h : containsStr needle s = true) :
    containsStr needle (jsTrim s) = true := by
  unfold containsStr at h ⊢
  obtain ⟨u, v, rfl⟩ := (firstIndexOf_isSome_iff needle s).mp h
  unfold jsTrim
  obtain ⟨u2, h1⟩ := dropWhile_append_infix isJsWs u needle v hne
    (fun ch hc => hns ch (List.mem_of_mem_head? hc))
  rw [h1]
  rw [show (u2 ++ needle ++ v).reverse
      = v.reverse ++ needle.reverse ++ u2.reverse by
    simp [List.reverse_append, List.append_assoc]]
  obtain ⟨v2, h2⟩ := dropWhile_append_infix isJsWs v.reverse needle.reverse
    u2.reverse (by simpa using hne)
    (fun ch hc => hns ch (by
      have := List.mem_of_mem_head? hc
      exact List.mem_reverse.mp this))
  rw [h2]
  rw [show (v2 ++ needle.reverse ++ u2.reverse).reverse
      = u2 ++ needle ++ v2.reverse by
    simp [List.reverse_append, List.append_assoc]]
  exact (firstIndexOf_isSome_iff needle _).mpr ⟨u2, v2.reverse, rfl⟩

/-- C8: on the concrete input
`"Fix this.\n<SUGGEST path=\"a.ts\" start=\"5\" end=\"5\">return 1;</SUGGEST>"`,
with any defaults, `extractSuggestion` yields comment and rationale
`"Fix this."` and the suggestion `a.ts` lines 5-5 with replacement
`return 1;`; and any input whose matched suggestion body contains a triple
backtick yields `suggestion = none` with the prose outside the block kept
(trimmed) as the comment. -/
theorem extractSuggestion_spec :
    (∀ defaults : SuggestDefaults,
      extractSuggestion
          "Fix this.\n<SUGGEST path=\"a.ts\" start=\"5\" end=\"5\">return 1;</SUGGEST>".data
          defaults
        = { comment := "Fix this.".data
            suggestion := some
              { path := "a.ts".data
                startLine := 5
                endLine := 5
                replacement := "return 1;".data
                title := none
                confidence := none
                rationale := "Fix this.".data } })
    ∧ (∀ (markdown : Str) (defaults : SuggestDefaults) (m0 attrs body : Str),
        findSuggestMatch markdown = some (m0, attrs, body) →
        containsStr "```".data body = true →
        extractSuggestion markdown defaults
          = { comment := stripSuggestionBlock markdown m0
              suggestion := none }) := by
  constructor
  · intro d
    rfl
  · intro markdown defaults m0 attrs body hm hfence
    unfold extractSuggestion
    rw [hm]
    have hsan : sanitizeReplacement body = [] := by
      unfold sanitizeReplacement
      by_cases hbe : body.isEmpty
      · rw [if_pos hbe]
      · rw [if_neg hbe]
        simp only [containsStr_jsTrim "```".data body (by decide) (by decide)
          hfence, if_true]
    simp only [hsan, List.isEmpty_nil, if_true]

/-- Witness for the fence-rejection half of C8: a suggestion body
containing a code fence is dropped while the prose survives. -/
theorem extractSuggestion_spec_witness :
    extractSuggestion
        "keep prose\n<suggest start=3>x\n```\nfence\n```\n</suggest>".data
        ⟨"file.ts".data, 1, 2⟩
      = { comment := stripSuggestionBlock
            "keep prose\n<suggest start=3>x\n```\nfence\n```\n</suggest>".data
            "<suggest start=3>x\n```\nfence\n```\n</suggest>".data
          suggestion := none } :=
  extractSuggestion_spec.2
    "keep prose\n<suggest start=3>x\n```\nfence\n```\n</suggest>".data
    ⟨"file.ts".data, 1, 2⟩
    "<suggest start=3>x\n```\nfence\n```\n</suggest>".data
    " start=3".data
    "x\n```\nfence\n```\n".data
    (by decide) (by decide)

/-! ## C6: in-range round trip -/

/-- The line `"<start>-<end>:"` opening a synthetic response block. -/
def rangeLine (ss es : Str) : Str :=
  ss ++ '-' :: (es ++ [':'])

/-- The lines of a synthetic model response made only of blocks
`"<start>-<end>:" / comment lines / "---"`. -/
def mkResponseLines (blocks : List (Str × Str × List Str)) : List Str :=
  blocks.flatMap fun b => rangeLine b.1 b.2.1 :: (b.2.2 ++ ["---".data])

/-- A synthetic model response assembled from blocks. -/
def mkResponse (blocks : List (Str × Str × List Str)) : Str :=
  joinLines (mkResponseLines blocks)

theorem dropWhile_eq_self_of_head (p : Char → Bool) (s : Str)
    (h : ∀ c, s.head? = some c → p c = false) : s.dropWhile p = s := by
  cases s with
  | nil => rfl
  | cons c cs =>
    rw [List.dropWhile_cons, h c rfl]
    simp

theorem jsTrim_eq_self (s : Str)
    (h1 : ∀ c, s.head? = some c → isJsWs c = false)
    (h2 : ∀ c, s.getLast? = some c → isJsWs c = false) : jsTrim s = s := by
  unfold jsTrim
  rw [dropWhile_eq_self_of_head _ _ h1]
  rw [dropWhile_eq_self_of_head _ _ (by
    intro c hc
    rw [List.head?_reverse] at hc
    exact h2 c hc)]
  exact List.reverse_reverse s

theorem joinLines_getLast (lines : List Str) (lastLine : Str)
    (h : lines.getLast? = some lastLine) (hne : lastLine ≠ []) :
    (joinLines lines).getLast? = lastLine.getLast? := by
  induction lines with
  | nil => cases h
  | cons l rest ih =>
    cases rest with
    | nil =>
      have : l = lastLine := by
        simpa [List.getLast?] using h
      subst this
      rfl
    | cons r rest2 =>
      rw [List.getLast?_cons_cons] at h
      have hj := ih h
      obtain ⟨x, hx⟩ : ∃ x, lastLine.getLast? = some x := by
        cases hl : lastLine.getLast? with
        | none =>
          rw [List.getLast?_eq_none_iff] at hl
          exact absurd hl hne
        | some x => exact ⟨x, rfl⟩
      have hstep : joinLines (l :: r :: rest2)
          = (l ++ ['\n']) ++ joinLines (r :: rest2) := by
        show l ++ '\n' :: joinLines (r :: rest2) = _
        simp
      rw [hstep, List.getLast?_append, hj, hx]
      rfl

theorem joinLines_cons (l : Str) (ls : List Str) :
    ∃ x, joinLines (l :: ls) = l ++ x := by
  cases ls with
  | nil => exact ⟨[], (List.append_nil l).symm⟩
  | cons r rs => exact ⟨'\n' :: joinLines (r :: rs), rfl⟩

theorem mkResponseLines_cons (b : Str × Str × List Str)
    (bs : List (Str × Str × List Str)) :
    mkResponseLines (b :: bs)
      = ((rangeLine b.1 b.2.1 :: b.2.2) ++ ["---".data])
          ++ mkResponseLines bs := by
  simp [mkResponseLines]

theorem mkResponseLines_getLast (blocks : List (Str × Str × List Str))
    (hne : blocks ≠ []) :
    (mkResponseLines blocks).getLast? = some "---".data := by
  induction blocks with
  | nil => exact absurd rfl hne
  | cons b bs ih =>
    rw [mkResponseLines_cons, List.getLast?_append]
    cases bs with
    | nil =>
      show ((mkResponseLines []).getLast?).or _ = _
      rw [show mkResponseLines [] = [] from rfl]
      show Option.or none _ = _
      rw [Option.none_or]
      rw [show (rangeLine b.1 b.2.1 :: b.2.2) ++ ["---".data]
          = ((rangeLine b.1 b.2.1 :: b.2.2)) ++ ["---".data] from rfl]
      exact List.getLast?_concat _
    | cons b2 bs2 =>
      rw [ih (by simp)]
      rfl

theorem splitLines_append_newline (a t : Str) (ha : '\n' ∉ a) :
    splitLines (a ++ '\n' :: t) = a :: splitLines t := by
  induction a with
  | nil => rfl
  | cons c a2 ih =>
    have hch : c ≠ '\n' := fun hc => ha (hc ▸ List.mem_cons_self c a2)
    have ha2 : '\n' ∉ a2 := fun hm => ha (List.mem_cons_of_mem c hm)
    simp only [List.cons_append, splitLines, ih ha2]
    rfl

theorem splitLines_joinLines (lines : List Str) (hne : lines ≠ [])
    (h : ∀ l ∈ lines, '\n' ∉ l) :
    splitLines (joinLines lines) = lines := by
  induction lines with
  | nil => exact absurd rfl hne
  | cons l rest ih =>
    cases rest with
    | nil => exact splitLines_no_newline l (h l (List.mem_cons_self _ _))
    | cons r rs =>
      rw [show joinLines (l :: r :: rs) = l ++ '\n' :: joinLines (r :: rs)
        from rfl]
      rw [splitLines_append_newline l _ (h l (List.mem_cons_self _ _))]
      rw [ih (by simp) (fun x hx => h x (List.mem_cons_of_mem l hx))]

theorem firstIndexOf_none_of_not_mem (needle s : Str) (c : Char)
    (hc : c ∈ needle) (h : c ∉ s) : firstIndexOf needle s = none := by
  cases hf : firstIndexOf needle s with
  | none => rfl
  | some i =>
    exfalso
    have hsome : (firstIndexOf needle s).isSome = true := by
      rw [hf]
      rfl
    obtain ⟨u, v, rfl⟩ := (firstIndexOf_isSome_iff needle s).mp hsome
    exact h (by
      rw [List.append_assoc]
      exact List.mem_append_right u (List.mem_append_left v hc))

theorem sanitizeCodeBlockLoop_id (start : Str) (fuel : Nat) (s : Str)
    (h : firstIndexOf start s = none) :
    sanitizeCodeBlockLoop start fuel s = s := by
  cases fuel with
  | zero => rfl
  | succ n =>
    unfold sanitizeCodeBlockLoop
    rw [h]

theorem sanitizeResponse_id (s : Str) (h : '`' ∉ s) :
    sanitizeResponse s = s := by
  unfold sanitizeResponse sanitizeCodeBlock
  rw [sanitizeCodeBlockLoop_id _ _ _
    (firstIndexOf_none_of_not_mem _ s '`' (by decide) h)]
  rw [sanitizeCodeBlockLoop_id _ _ _
    (firstIndexOf_none_of_not_mem _ s '`' (by decide) h)]

theorem mem_joinLines (c : Char) (lines : List Str) (hm : c ∈ joinLines lines) :
    (∃ l ∈ lines, c ∈ l) ∨ c = '\n' := by
  induction lines with
  | nil => cases hm
  | cons l rest ih =>
    cases rest with
    | nil => exact Or.inl ⟨l, List.mem_cons_self _ _, hm⟩
    | cons r rs =>
      rw [show joinLines (l :: r :: rs) = l ++ '\n' :: joinLines (r :: rs)
        from rfl] at hm
      rcases List.mem_append.mp hm with hm2 | hm2
      · exact Or.inl ⟨l, List.mem_cons_self _ _, hm2⟩
      · rcases List.mem_cons.mp hm2 with hm3 | hm3
        · exact Or.inr hm3
        · rcases ih hm3 with ⟨l2, hl2, hcl2⟩ | hm4
          · exact Or.inl ⟨l2, List.mem_cons_of_mem _ hl2, hcl2⟩
          · exact Or.inr hm4

theorem isDigit_not_ws (c : Char) (h : c.isDigit = true) : isJsWs c = false := by
  unfold isJsWs
  by_contra hw
  rw [Bool.not_eq_false] at hw
  simp only [Bool.or_eq_true, decide_eq_true_eq] at hw
  rcases hw with ((((hc | hc) | hc) | hc) | hc) | hc <;>
    (subst hc; exact absurd h (by decide))

theorem rangeLine_mem (c : Char) (ss es : Str)
    (hss : ss.all Char.isDigit) (hes : es.all Char.isDigit)
    (hc : c ∈ rangeLine ss es) :
    c.isDigit = true ∨ c = '-' ∨ c = ':' := by
  unfold rangeLine at hc
  rcases List.mem_append.mp hc with hm | hm
  · exact Or.inl (List.all_eq_true.mp hss c hm)
  · rcases List.mem_cons.mp hm with hm2 | hm2
    · exact Or.inr (Or.inl hm2)
    · rcases List.mem_append.mp hm2 with hm3 | hm3
      · exact Or.inl (List.all_eq_true.mp hes c hm3)
      · rcases List.mem_cons.mp hm3 with hm4 | hm4
        · exact Or.inr (Or.inr hm4)
        · cases hm4

theorem matchRangeAt_rangeLine (ss es : Str) (hss1 : ss ≠ [])
    (hss2 : ss.all Char.isDigit) (hes1 : es ≠ [])
    (hes2 : es.all Char.isDigit) :
    matchRangeAt (rangeLine ss es)
      = some (jsNumberOfDigits ss, jsNumberOfDigits es) := by
  have hssE : ss.isEmpty = false := by
    cases ss with
    | nil => exact absurd rfl hss1
    | cons x xs => rfl
  have hesE : es.isEmpty = false := by
    cases es with
    | nil => exact absurd rfl hes1
    | cons x xs => rfl
  unfold matchRangeAt rangeLine
  rw [takeDigits_all_digits ss ('-' :: (es ++ [':'])) hss2
    (fun ch h => by injection h with h; rw [← h]; decide)]
  simp only [hssE, Bool.false_eq_true, if_false,
    takeDigits_all_digits es [':'] hes2
      (fun ch h => by injection h with h; rw [← h]; decide),
    hesE]
  rfl

theorem matchLineRange_rangeLine (ss es : Str) (hss1 : ss ≠ [])
    (hss2 : ss.all Char.isDigit) (hes1 : es ≠ [])
    (hes2 : es.all Char.isDigit) :
    matchLineRange (rangeLine ss es)
      = some (jsNumberOfDigits ss, jsNumberOfDigits es) := by
  unfold matchLineRange
  rw [matchRangeAt_rangeLine ss es hss1 hss2 hes1 hes2]

theorem parseReviewLines_comment_lines (patches : List PatchTuple)
    (cls tl : List Str) (s e : Int) (cc : Str) (acc : List Review)
    (hcls : ∀ l ∈ cls, matchLineRange l = none ∧ jsTrim l ≠ "---".data) :
    parseReviewLines patches (cls ++ tl) (some s) (some e) cc acc
      = parseReviewLines patches tl (some s) (some e)
          (cc ++ (cls.map (· ++ ['\n'])).flatten) acc := by
  induction cls generalizing cc with
  | nil => simp
  | cons l cls2 ih =>
    obtain ⟨hm, hsep⟩ := hcls l (List.mem_cons_self _ _)
    rw [List.cons_append]
    simp only [parseReviewLines, hm, if_neg hsep, Option.isSome_some,
      and_self, if_true]
    rw [ih _ (fun x hx => hcls x (List.mem_cons_of_mem l hx))]
    congr 1
    simp [List.append_assoc]

/-- The block loop of the in-range round trip, generalized over the
accumulated reviews. -/
theorem parseReviewLines_blocks (patches : List PatchTuple)
    (blocks : List (Str × Str × List Str)) (acc : List Review)
    (hp : ∀ p ∈ patches, 0 ≤ p.1 ∧ p.1 ≤ p.2.1)
    (hblocks : ∀ b ∈ blocks,
        (b.1 ≠ [] ∧ b.1.all Char.isDigit)
      ∧ (b.2.1 ≠ [] ∧ b.2.1.all Char.isDigit)
      ∧ (∃ p ∈ patches, jsNumberOfDigits b.1 = p.1
          ∧ jsNumberOfDigits b.2.1 = p.2.1)
      ∧ ∀ l ∈ b.2.2, matchLineRange l = none ∧ jsTrim l ≠ "---".data) :
    parseReviewLines patches (mkResponseLines blocks) none none [] acc
      = some (acc ++ blocks.map fun b =>
          ⟨jsNumberOfDigits b.1, jsNumberOfDigits b.2.1,
            (b.2.2.map (· ++ ['\n'])).flatten⟩) := by
  induction blocks generalizing acc with
  | nil =>
    show storeReview patches none none [] acc = _
    simp [storeReview]
  | cons b bs ih =>
    obtain ⟨⟨hss1, hss2⟩, ⟨hes1, hes2⟩, ⟨p, hpmem, hps, hpe⟩, hcl⟩ :=
      hblocks b (List.mem_cons_self _ _)
    have hstep : mkResponseLines (b :: bs)
        = rangeLine b.1 b.2.1
            :: (b.2.2 ++ ("---".data :: mkResponseLines bs)) := by
      rw [mkResponseLines_cons]
      simp [List.append_assoc]
    rw [hstep]
    simp only [parseReviewLines,
      matchLineRange_rangeLine b.1 b.2.1 hss1 hss2 hes1 hes2]
    rw [show storeReview patches none none [] acc = some acc from rfl]
    dsimp only
    rw [parseReviewLines_comment_lines patches b.2.2 _ _ _ [] acc hcl]
    simp only [parseReviewLines,
      show matchLineRange "---".data = none from by decide,
      if_pos (show jsTrim "---".data = "---".data from by decide)]
    have hp2 : ∀ q ∈ patches, 0 ≤ q.1 ∧ 0 ≤ q.2.1 :=
      fun q hq => ⟨(hp q hq).1, le_trans (hp q hq).1 (hp q hq).2⟩
    have hL : 0 < jsNumberOfDigits b.2.1 - jsNumberOfDigits b.1 + 1 := by
      have := (hp p hpmem).2
      omega
    have hflush := (storeReview_flush_spec patches (jsNumberOfDigits b.1)
      (jsNumberOfDigits b.2.1)
      ([] ++ (b.2.2.map (· ++ ['\n'])).flatten) acc hp2).1
      ⟨hL, p, hpmem, by omega, by omega⟩
    rw [hflush]
    dsimp only
    rw [ih _ (fun x hx => hblocks x (List.mem_cons_of_mem b hx))]
    congr 1
    simp [List.append_assoc]

/-- C6: a synthetic response consisting only of in-range blocks (each
claimed range exactly equal to some patch's range, comment lines inert)
parses to exactly one review per block, with the claimed start and end
lines kept verbatim and the comment body equal to the block's own text
(hence carrying no relocation note). -/
theorem parseReview_in_range_round_trip (patches : List PatchTuple)
    (blocks : List (Str × Str × List Str))
    (hp : ∀ p ∈ patches, 0 ≤ p.1 ∧ p.1 ≤ p.2.1)
    (hblocks : ∀ b ∈ blocks,
        (b.1 ≠ [] ∧ b.1.all Char.isDigit)
      ∧ (b.2.1 ≠ [] ∧ b.2.1.all Char.isDigit)
      ∧ (∃ p ∈ patches, jsNumberOfDigits b.1 = p.1
          ∧ jsNumberOfDigits b.2.1 = p.2.1)
      ∧ ∀ l ∈ b.2.2, '\n' ∉ l ∧ '`' ∉ l
          ∧ matchLineRange l = none ∧ jsTrim l ≠ "---".data) :
    parseReview (mkResponse blocks) patches
      = some (blocks.map fun b =>
          ⟨jsNumberOfDigits b.1, jsNumberOfDigits b.2.1,
            (b.2.2.map (· ++ ['\n'])).flatten⟩) := by
  cases blocks with
  | nil =>
    rw [show parseReview (mkResponse []) patches
        = parseReviewLines patches [[]] none none [] [] from rfl]
    simp only [parseReviewLines, show matchLineRange [] = none from rfl,
      if_neg (show ¬ (jsTrim [] = "---".data) from by decide)]
    rw [if_neg (by simp)]
    rfl
  | cons b bs =>
    have hlinesmem : ∀ l ∈ mkResponseLines (b :: bs), '\n' ∉ l ∧ '`' ∉ l := by
      intro l hl
      rw [mkResponseLines, List.mem_flatMap] at hl
      obtain ⟨bb, hbb, hlb⟩ := hl
      obtain ⟨⟨h1, h2⟩, ⟨h3, h4⟩, _, h5⟩ := hblocks bb hbb
      rcases List.mem_cons.mp hlb with rfl | hlb2
      · constructor
        · intro hm
          rcases rangeLine_mem '\n' bb.1 bb.2.1 h2 h4 hm with hd | hd | hd
          · exact absurd hd (by decide)
          · exact absurd hd (by decide)
          · exact absurd hd (by decide)
        · intro hm
          rcases rangeLine_mem '`' bb.1 bb.2.1 h2 h4 hm with hd | hd | hd
          · exact absurd hd (by decide)
          · exact absurd hd (by decide)
          · exact absurd hd (by decide)
      · rcases List.mem_append.mp hlb2 with hcl | hsepm
        · exact ⟨(h5 l hcl).1, (h5 l hcl).2.1⟩
        · rw [List.mem_singleton.mp hsepm]
          exact ⟨by decide, by decide⟩
    have hne : mkResponseLines (b :: bs) ≠ [] := by
      rw [mkResponseLines_cons]
      simp
    have hnonl : ∀ l ∈ mkResponseLines (b :: bs), '\n' ∉ l :=
      fun l hl => (hlinesmem l hl).1
    have hnb : '`' ∉ mkResponse (b :: bs) := by
      intro hm
      rcases mem_joinLines '`' _ hm with ⟨l, hl, hcl⟩ | hm2
      · exact (hlinesmem l hl).2 hcl
      · exact absurd hm2 (by decide)
    have hshape : mkResponseLines (b :: bs)
        = rangeLine b.1 b.2.1
            :: (b.2.2 ++ ("---".data :: mkResponseLines bs)) := by
      rw [mkResponseLines_cons]
      simp [List.append_assoc]
    obtain ⟨⟨hss1, hss2⟩, _, _, _⟩ := hblocks b (List.mem_cons_self _ _)
    have htrim : jsTrim (mkResponse (b :: bs)) = mkResponse (b :: bs) := by
      apply jsTrim_eq_self
      · intro c hc
        obtain ⟨x, hx⟩ := joinLines_cons (rangeLine b.1 b.2.1)
          (b.2.2 ++ ("---".data :: mkResponseLines bs))
        have hform : mkResponse (b :: bs) = rangeLine b.1 b.2.1 ++ x := by
          rw [show mkResponse (b :: bs)
              = joinLines (mkResponseLines (b :: bs)) from rfl, hshape]
          exact hx
        rw [hform] at hc
        obtain ⟨d, ds, hd⟩ : ∃ d ds, b.1 = d :: ds := by
          cases hb1 : b.1 with
          | nil => exact absurd hb1 hss1
          | cons d ds => exact ⟨d, ds, rfl⟩
        rw [hd] at hc
        simp only [rangeLine, List.cons_append, List.head?_cons] at hc
        injection hc with hc
        rw [← hc]
        apply isDigit_not_ws
        rw [hd] at hss2
        rw [List.all_cons, Bool.and_eq_true] at hss2
        exact hss2.1
      · intro c hc
        rw [show mkResponse (b :: bs)
            = joinLines (mkResponseLines (b :: bs)) from rfl] at hc
        rw [joinLines_getLast _ "---".data
          (mkResponseLines_getLast _ (by simp)) (by decide)] at hc
        have : c = '-' := by
          have h2 : ("---".data : Str).getLast? = some '-' := by decide
          rw [h2] at hc
          injection hc with hc
          exact hc.symm
        rw [this]
        decide
    rw [show parseReview (mkResponse (b :: bs)) patches
        = parseReviewLines patches
            (splitLines (sanitizeResponse (jsTrim (mkResponse (b :: bs)))))
            none none [] [] from rfl]
    rw [htrim, sanitizeResponse_id _ hnb]
    rw [show mkResponse (b :: bs)
        = joinLines (mkResponseLines (b :: bs)) from rfl]
    rw [splitLines_joinLines _ hne hnonl]
    rw [parseReviewLines_blocks patches (b :: bs) [] hp (by
      intro bb hbb
      obtain ⟨x1, x2, x3, x4⟩ := hblocks bb hbb
      exact ⟨x1, x2, x3, fun l hl => ⟨(x4 l hl).2.2.1, (x4 l hl).2.2.2⟩⟩)]
    rw [List.nil_append]

/-- Witness for C6: two in-range blocks against patches `(10, 20)` and
`(30, 40)` round-trip with their exact ranges and verbatim comments. -/
theorem parseReview_in_range_round_trip_witness :
    parseReview
        (mkResponse [("10".data, "20".data, ["good".data]),
          ("30".data, "40".data, ["fine".data, "ok".data])])
        [((10 : Int), 20, ([] : Str)), ((30 : Int), 40, ([] : Str))]
      = some [⟨10, 20, "good\n".data⟩, ⟨30, 40, "fine\nok\n".data⟩] := by
  have h := parseReview_in_range_round_trip
    [((10 : Int), 20, ([] : Str)), ((30 : Int), 40, ([] : Str))]
    [("10".data, "20".data, ["good".data]),
      ("30".data, "40".data, ["fine".data, "ok".data])]
    (by decide)
    (by
      intro b hb
      rcases List.mem_cons.mp hb with rfl | hb2
      · refine ⟨by decide, by decide, ⟨((10 : Int), 20, ([] : Str)),
          by decide, by decide, by decide⟩, by decide⟩
      · rcases List.mem_cons.mp hb2 with rfl | hb3
        · refine ⟨by decide, by decide, ⟨((30 : Int), 40, ([] : Str)),
            by simp, by decide, by decide⟩, by decide⟩
        · cases hb3)
  exact h.trans (by decide)

/-! ## C7: addReviewedCommitId / getReviewedCommitIds round trip -/

/-- `needle` occurs in `hay` at position `i`. -/
def occursAt (needle hay : Str) (i : Nat) : Prop :=
  needle <+: hay.drop i

/-- `firstIndexOf` returns exactly the least occurrence position. -/
theorem firstIndexOf_eq_some_iff (needle hay : Str) (i : Nat) :
    firstIndexOf needle hay = some i ↔
      occursAt needle hay i ∧ ∀ j < i, ¬ occursAt needle hay j := by
  induction hay generalizing i with
  | nil =>
    cases needle with
    | nil =>
      constructor
      · intro h
        have hi : i = 0 := by
          simp [firstIndexOf] at h
          omega
        subst hi
        exact ⟨List.nil_prefix, by omega⟩
      · rintro ⟨-, h2⟩
        have hi : i = 0 := by
          by_contra hne
          exact h2 0 (by omega) List.nil_prefix
        subst hi
        rfl
    | cons c cs =>
      constructor
      · intro h
        simp [firstIndexOf] at h
      · rintro ⟨h1, -⟩
        rw [occursAt, List.drop_nil] at h1
        cases List.prefix_nil.mp h1
  | cons c rest ih =>
    have hshift : ∀ j, occursAt needle (c :: rest) (j + 1) ↔ occursAt needle rest j := by
      intro j
      unfold occursAt
      rw [List.drop_succ_cons]
    by_cases hp : needle.isPrefixOf (c :: rest)
    · have hocc0 : occursAt needle (c :: rest) 0 := by
        unfold occursAt
        simpa using List.isPrefixOf_iff_prefix.mp hp
      simp only [firstIndexOf, if_pos hp]
      constructor
      · intro h
        injection h with h
        subst h
        exact ⟨hocc0, by omega⟩
      · rintro ⟨h1, h2⟩
        have hi : i = 0 := by
          by_contra hne
          exact h2 0 (by omega) hocc0
        subst hi
        rfl
    · have hocc0 : ¬ occursAt needle (c :: rest) 0 := by
        intro h
        exact hp (List.isPrefixOf_iff_prefix.mpr (by simpa [occursAt] using h))
      simp only [firstIndexOf, if_neg hp]
      constructor
      · intro h
        cases hfi : firstIndexOf needle rest with
        | none =>
          rw [hfi] at h
          simp at h
        | some k =>
          rw [hfi] at h
          simp only [Option.map_some'] at h
          injection h with h
          subst h
          obtain ⟨ha, hb⟩ := (ih k).mp hfi
          refine ⟨(hshift k).mpr ha, ?_⟩
          intro j hj
          cases j with
          | zero => exact hocc0
          | succ j' =>
            intro hocc
            exact hb j' (by omega) ((hshift j').mp hocc)
      · rintro ⟨h1, h2⟩
        cases i with
        | zero => exact absurd h1 hocc0
        | succ k =>
          have : firstIndexOf needle rest = some k := by
            refine (ih k).mpr ⟨(hshift k).mp h1, ?_⟩
            intro j hj hocc
            exact h2 (j + 1) (by omega) ((hshift j).mpr hocc)
          rw [this]
          rfl

/-- A `none` result means no occurrence anywhere. -/
theorem not_occursAt_of_firstIndexOf_none (needle hay : Str)
    (h : firstIndexOf needle hay = none) (j : Nat) :
    ¬ occursAt needle hay j := by
  intro hocc
  obtain ⟨v, hv⟩ := hocc
  have hdec : hay = hay.take j ++ needle ++ v := by
    rw [List.append_assoc, hv, List.take_append_drop]
  have hsome := (firstIndexOf_isSome_iff needle hay).mpr ⟨hay.take j, v, hdec⟩
  rw [h] at hsome
  cases hsome

/-- An occurrence is refuted by a single mismatched character. -/
theorem not_occursAt_of_getElem_ne (needle hay : Str) (j k : Nat)
    (hk : k < needle.length) (hne : needle[k]? ≠ hay[j + k]?) :
    ¬ occursAt needle hay j := by
  intro hocc
  apply hne
  have h1 : needle = (hay.drop j).take needle.length :=
    List.prefix_iff_eq_take.mp hocc
  conv_lhs => rw [h1]
  rw [List.getElem?_take, if_pos hk, List.getElem?_drop]

/-- Occurrences inside a region where two strings agree transfer between
them. -/
theorem occursAt_of_prefix_agree (needle hay1 hay2 : Str) (n j : Nat)
    (hag : hay1.take n = hay2.take n) (hj : j + needle.length ≤ n)
    (h : occursAt needle hay1 j) : occursAt needle hay2 j := by
  have key : ∀ hay : Str,
      ((hay.take n).drop j).take needle.length = (hay.drop j).take needle.length := by
    intro hay
    rw [List.drop_take, List.take_take, inf_eq_left.mpr (by omega)]
  have h1 : needle = (hay1.drop j).take needle.length :=
    List.prefix_iff_eq_take.mp h
  have h2 : needle = (hay2.drop j).take needle.length := by
    rw [← key hay2, ← hag, key hay1]
    exact h1
  exact List.prefix_iff_eq_take.mpr h2

/-- Characters of a git commit SHA: lowercase hexadecimal digits. -/
def isShaChar (c : Char) : Bool :=
  c.isDigit || ('a' ≤ c && c ≤ 'f')

/-- A SHA character is none of the delimiter characters and is not
whitespace. -/
theorem isShaChar_props (c : Char) (h : isShaChar c = true) :
    c ≠ '<' ∧ c ≠ 'o' ∧ c ≠ '-' ∧ isJsWs c = false := by
  refine ⟨?_, ?_, ?_, ?_⟩
  · intro he
    rw [he] at h
    exact absurd h (by decide)
  · intro he
    rw [he] at h
    exact absurd h (by decide)
  · intro he
    rw [he] at h
    exact absurd h (by decide)
  · by_contra hw
    rw [Bool.not_eq_false] at hw
    simp only [isJsWs, Bool.or_eq_true, decide_eq_true_eq] at hw
    rcases hw with ((((he | he) | he) | he) | he) | he <;>
      rw [he] at h <;> exact absurd h (by decide)

/-- `splitOnCommentOpen` never returns the empty list. -/
theorem splitOnCommentOpen_ne_nil (s : Str) : splitOnCommentOpen s ≠ [] := by
  induction s using splitOnCommentOpen.induct with
  | case1 => simp [splitOnCommentOpen]
  | case2 rest ih => simp [splitOnCommentOpen]
  | case3 c rest hno ih =>
    rw [splitOnCommentOpen.eq_def]
    split
    · simp
    · simp
    · rename_i c2 r2 hcond heq
      injection heq with h1 h2
      subst h1
      subst h2
      cases hsp : splitOnCommentOpen rest with
      | nil => exact absurd hsp ih
      | cons a l => simp [List.modifyHead_cons]

/-- JS `split('<!--')` distributes over a `'<!--'` delimiter inserted
between two strings: no occurrence of the delimiter can straddle the
boundary, because `'<!--'` contains `'<'` only at its head. -/
theorem splitOnCommentOpen_append_open (A R : Str) :
    splitOnCommentOpen (A ++ '<' :: '!' :: '-' :: '-' :: R)
      = splitOnCommentOpen A ++ splitOnCommentOpen R := by
  induction A using splitOnCommentOpen.induct with
  | case1 => rfl
  | case2 rest ih =>
    show splitOnCommentOpen ('<' :: '!' :: '-' :: '-' :: (rest ++ _)) = _
    rw [show splitOnCommentOpen
          ('<' :: '!' :: '-' :: '-' :: (rest ++ '<' :: '!' :: '-' :: '-' :: R))
        = [] :: splitOnCommentOpen (rest ++ '<' :: '!' :: '-' :: '-' :: R)
        from rfl]
    rw [ih]
    rfl
  | case3 c rest hno ih =>
    show splitOnCommentOpen (c :: (rest ++ '<' :: '!' :: '-' :: '-' :: R)) = _
    rw [splitOnCommentOpen.eq_def]
    split
    · rename_i heq
      simp at heq
    · rename_i rest' heq
      injection heq with h1 h2
      exfalso
      rcases rest with _ | ⟨r1, _ | ⟨r2, _ | ⟨r3, rest3⟩⟩⟩
      · injection h2 with ha hb
        exact absurd ha (by decide)
      · injection h2 with ha hb
        injection hb with hc hd
        exact absurd hc (by decide)
      · injection h2 with ha hb
        injection hb with hc hd
        injection hd with he hf
        exact absurd he (by decide)
      · injection h2 with ha hb
        injection hb with hc hd
        injection hd with he hf
        exact hno rest3 h1 (by rw [ha, hc, he])
    · rename_i c2 r2 hcond heq
      injection heq with h1 h2
      subst h1
      subst h2
      rw [show splitOnCommentOpen (c :: rest)
          = (splitOnCommentOpen rest).modifyHead (c :: ·) from ?side]
      · rw [ih]
        cases hsp : splitOnCommentOpen rest with
        | nil => exact absurd hsp (splitOnCommentOpen_ne_nil rest)
        | cons a l => simp [List.modifyHead_cons, List.cons_append]
      case side =>
        rw [splitOnCommentOpen.eq_def]
        split
        · rename_i heq2
          simp at heq2
        · rename_i rest' heq2
          injection heq2 with h1 h2
          exact absurd h2 (hno rest' h1)
        · rename_i c3 r3 hcond2 heq2
          injection heq2 with h1 h2
          subst h1
          subst h2
          rfl

/-- A piece with no `'<'` at all is not split further. -/
theorem splitOnCommentOpen_no_open (s : Str) (h : '<' ∉ s) :
    splitOnCommentOpen s = [s] := by
  induction s with
  | nil => rfl
  | cons c rest ih =>
    have hc : c ≠ '<' := fun hcc => h (hcc ▸ List.mem_cons_self c rest)
    have hrest : '<' ∉ rest := fun hm => h (List.mem_cons_of_mem c hm)
    rw [splitOnCommentOpen.eq_def]
    split
    · rename_i heq
      simp at heq
    · rename_i rest' heq
      injection heq with h1 h2
      exact absurd h1 hc
    · rename_i c2 r2 hcond heq
      injection heq with h1 h2
      subst h1
      subst h2
      rw [ih hrest]
      rfl

/-- `replaceFirst` walks past characters that cannot start the needle. -/
theorem replaceFirst_cons_of_ne (n : Char) (ns repl : Str) (c : Char)
    (rest : Str) (hne : n ≠ c) :
    replaceFirst (n :: ns) repl (c :: rest)
      = c :: replaceFirst (n :: ns) repl rest := by
  rw [replaceFirst]
  rw [if_neg]
  intro hp
  obtain ⟨v, hv⟩ := List.isPrefixOf_iff_prefix.mp hp
  rw [List.cons_append] at hv
  injection hv with h1 h2
  exact hne h1

/-- Stripping the `-->` closer and trimming a freshly appended
`' ' ++ sha ++ ' -->\n'` piece recovers the SHA itself. -/
theorem piece_to_sha (sha : Str) (h1 : sha ≠ []) (h2 : sha.all isShaChar = true) :
    jsTrim (replaceFirst "-->".data [] (' ' :: (sha ++ " -->\n".data))) = sha := by
  have hrep : ∀ t : Str, t.all isShaChar = true →
      replaceFirst "-->".data [] (t ++ " -->\n".data) = t ++ [' ', '\n'] := by
    intro t ht
    induction t with
    | nil => decide
    | cons c cs ihc =>
      rw [List.all_cons, Bool.and_eq_true] at ht
      have hcne : '-' ≠ c := fun hcc =>
        (isShaChar_props c ht.1).2.2.1 hcc.symm
      rw [List.cons_append,
        replaceFirst_cons_of_ne '-' "->".data [] c (cs ++ " -->\n".data) hcne,
        ihc ht.2]
      rfl
  have houter : replaceFirst "-->".data [] (' ' :: (sha ++ " -->\n".data))
      = ' ' :: (sha ++ [' ', '\n']) := by
    rw [replaceFirst_cons_of_ne '-' "->".data [] ' ' (sha ++ " -->\n".data)
      (by decide), hrep sha h2]
  rw [houter]
  obtain ⟨a, rest, rfl⟩ : ∃ a rest, sha = a :: rest := by
    cases sha with
    | nil => exact absurd rfl h1
    | cons a rest => exact ⟨a, rest, rfl⟩
  rw [List.all_cons, Bool.and_eq_true] at h2
  rw [jsTrim, List.dropWhile_cons, if_pos (by decide), List.cons_append,
    List.dropWhile_cons, if_neg (by rw [(isShaChar_props a h2.1).2.2.2]; simp)]
  obtain ⟨b, t, hbt⟩ : ∃ b t, (a :: rest :Str).reverse = b :: t := by
    cases hr : (a :: rest : Str).reverse with
    | nil => exact absurd (List.reverse_eq_nil_iff.mp hr) (by simp)
    | cons b t => exact ⟨b, t, rfl⟩
  have hb : b ∈ (a :: rest : Str) := by
    rw [← List.mem_reverse, hbt]
    exact List.mem_cons_self b t
  have hbsha : isShaChar b = true := by
    rcases List.mem_cons.mp hb with rfl | hbm
    · exact h2.1
    · exact List.all_eq_true.mp h2.2 b hbm
  rw [show (a :: (rest ++ ([' ', '\n'] : Str))) = (a :: rest) ++ [' ', '\n'] from rfl,
    List.reverse_append, show ([' ', '\n'] : Str).reverse = ['\n', ' '] from rfl,
    List.cons_append, List.dropWhile_cons, if_pos (by decide),
    List.cons_append, List.nil_append,
    List.dropWhile_cons, if_pos (by decide), hbt,
    List.dropWhile_cons, if_neg (by rw [(isShaChar_props b hbsha).2.2.2]; simp),
    ← hbt, List.reverse_reverse]

/-- After inserting `'<!-- ' ++ sha ++ ' -->\n'` followed by the end tag
behind a prefix `C` free of the end tag, the first occurrence of the end
tag is exactly the appended one: the tag's only `'<'` is at its head, a
hex SHA contains no `'<'`, and the tag's char `'o'` (at index 6) is not a
hex digit. -/
theorem firstIndexOf_insert_end (C R sha : Str)
    (hsha : sha ≠ []) (hhex : sha.all isShaChar = true)
    (hmin : ∀ j, j + 32 ≤ C.length → ¬ occursAt COMMIT_ID_END_TAG C j) :
    firstIndexOf COMMIT_ID_END_TAG
        (C ++ "<!-- ".data ++ sha ++ " -->\n".data ++ (COMMIT_ID_END_TAG ++ R))
      = some (C.length + 10 + sha.length) := by
  have hEN : COMMIT_ID_END_TAG.length = 32 := by decide
  have h5a : ("<!-- ".data : Str).length = 5 := by decide
  have h5b : (" -->\n".data : Str).length = 5 := by decide
  have hPlen : (C ++ "<!-- ".data ++ sha ++ " -->\n".data).length
      = C.length + 10 + sha.length := by
    simp only [List.length_append, h5a, h5b]
    omega
  have hassoc : C ++ "<!-- ".data ++ sha ++ " -->\n".data
        ++ (COMMIT_ID_END_TAG ++ R)
      = C ++ ("<!-- ".data ++ (sha ++ (" -->\n".data
          ++ (COMMIT_ID_END_TAG ++ R)))) := by
    simp [List.append_assoc]
  apply (firstIndexOf_eq_some_iff _ _ _).mpr
  constructor
  · rw [occursAt, List.drop_left' hPlen]
    exact List.prefix_append _ _
  · intro j hj
    by_cases hc1 : j + 32 ≤ C.length
    · intro hocc'
      apply hmin j hc1
      refine occursAt_of_prefix_agree COMMIT_ID_END_TAG _ C C.length j ?_
        (by omega) hocc'
      rw [hassoc, List.take_left, List.take_length]
    · by_cases hc2 : j < C.length
      · apply not_occursAt_of_getElem_ne COMMIT_ID_END_TAG _ j (C.length - j)
          (by omega)
        rw [show j + (C.length - j) = C.length from by omega]
        rw [hassoc, List.getElem?_append_right (le_refl C.length),
          Nat.sub_self]
        rw [List.getElem?_append_left
            (by decide : (0 : Nat) < ("<!-- ".data : Str).length),
          (by decide : (("<!-- ".data : Str))[0]? = some '<')]
        have hdec : ∀ k, k < 32 → 1 ≤ k →
            (COMMIT_ID_END_TAG)[k]? ≠ some '<' := by decide
        exact hdec _ (by omega) (by omega)
      · by_cases hc3 : j = C.length
        · subst hc3
          obtain ⟨a0, srest, rfl⟩ : ∃ a0 srest, sha = a0 :: srest := by
            cases sha with
            | nil => exact absurd rfl hsha
            | cons a0 srest => exact ⟨a0, srest, rfl⟩
          apply not_occursAt_of_getElem_ne COMMIT_ID_END_TAG _ C.length 6
            (by omega)
          rw [(by decide : (COMMIT_ID_END_TAG)[6]? = some 'o')]
          rw [hassoc, List.getElem?_append_right
            (by omega : C.length ≤ C.length + 6),
            show C.length + 6 - C.length = 6 from by omega,
            List.getElem?_append_right (by rw [h5a]; omega : ("<!-- ".data : Str).length ≤ 6),
            show (6 : Nat) - ("<!-- ".data : Str).length = 1 from by rw [h5a]]
          cases srest with
          | nil => exact (by decide : (some 'o' : Option Char) ≠ some ' ')
          | cons b0 t0 =>
            rw [(by simp : ((a0 :: b0 :: t0 : Str) ++ (" -->\n".data
                ++ (COMMIT_ID_END_TAG ++ R)))[1]? = some b0)]
            have hb0 : isShaChar b0 = true :=
              List.all_eq_true.mp hhex b0 (by simp)
            intro hco
            injection hco with hco
            exact absurd hco.symm (isShaChar_props b0 hb0).2.1
        · have hd : C.length ≤ j := by omega
          have hd1 : 1 ≤ j - C.length := by omega
          have hdlt : j - C.length < 10 + sha.length := by omega
          apply not_occursAt_of_getElem_ne COMMIT_ID_END_TAG _ j 0
            (by omega)
          rw [Nat.add_zero,
            (by decide : (COMMIT_ID_END_TAG)[0]? = some '<'),
            hassoc, List.getElem?_append_right hd]
          by_cases hda : j - C.length < 5
          · rw [List.getElem?_append_left (by rw [h5a]; omega)]
            have hdec : ∀ k, k < 5 → 1 ≤ k →
                some '<' ≠ ("<!-- ".data : Str)[k]? := by decide
            exact hdec _ hda hd1
          · rw [List.getElem?_append_right (by rw [h5a]; omega), h5a]
            by_cases hdb : j - C.length - 5 < sha.length
            · rw [List.getElem?_append_left hdb]
              cases hsc : sha[j - C.length - 5]? with
              | none => simp
              | some c =>
                have hcx : isShaChar c = true :=
                  List.all_eq_true.mp hhex c (List.getElem?_mem hsc)
                intro hco
                injection hco with hco
                exact absurd hco.symm (isShaChar_props c hcx).1
            · rw [List.getElem?_append_right (by omega),
                List.getElem?_append_left
                  (by rw [h5b]; omega : j - C.length - 5 - sha.length
                    < (" -->\n".data : Str).length)]
              have hdec : ∀ k, k < 5 →
                  some '<' ≠ (" -->\n".data : Str)[k]? := by decide
              apply hdec
              rw [h5b] at *
              omega

/-- Appending to a body with no commit-ids block creates a fresh block
whose only recorded id is the new SHA. -/
theorem getReviewedCommitIds_add_of_no_tags (body sha : Str)
    (hsha : sha ≠ []) (hhex : sha.all isShaChar = true)
    (hs : firstIndexOf COMMIT_ID_START_TAG body = none)
    (he : firstIndexOf COMMIT_ID_END_TAG body = none) :
    getReviewedCommitIds (addReviewedCommitId body sha) = [sha] := by
  have hST : COMMIT_ID_START_TAG.length = 34 := by decide
  have hEN : COMMIT_ID_END_TAG.length = 32 := by decide
  have h1l : ("\n".data : Str).length = 1 := by decide
  have h6l : ("\n<!-- ".data : Str).length = 6 := by decide
  have h5b : (" -->\n".data : Str).length = 5 := by decide
  have hSTnl : ∀ k, k < 34 → (COMMIT_ID_START_TAG)[k]? ≠ some '\n' := by decide
  have hSTlt : ∀ k, k < 34 → 1 ≤ k → (COMMIT_ID_START_TAG)[k]? ≠ some '<' := by
    decide
  have hENnl : ∀ k, k < 32 → (COMMIT_ID_END_TAG)[k]? ≠ some '\n' := by decide
  have hadd : addReviewedCommitId body sha
      = body ++ "\n".data ++ COMMIT_ID_START_TAG ++ "\n<!-- ".data
          ++ sha ++ " -->\n".data ++ COMMIT_ID_END_TAG := by
    rw [addReviewedCommitId.eq_def, hs, he]
  rw [hadd]
  set N := body ++ "\n".data ++ COMMIT_ID_START_TAG ++ "\n<!-- ".data
      ++ sha ++ " -->\n".data ++ COMMIT_ID_END_TAG with hNdef
  have hassoc1 : N = body ++ ("\n".data ++ (COMMIT_ID_START_TAG
      ++ ("\n<!-- ".data ++ (sha ++ (" -->\n".data ++ COMMIT_ID_END_TAG))))) := by
    rw [hNdef]
    simp [List.append_assoc]
  have hNbody : N[body.length]? = some '\n' := by
    rw [hassoc1, List.getElem?_append_right (le_refl body.length),
      Nat.sub_self,
      List.getElem?_append_left (by decide : (0 : Nat) < ("\n".data : Str).length),
      (by decide : ("\n".data : Str)[0]? = some '\n')]
  have hfiS : firstIndexOf COMMIT_ID_START_TAG N = some (body.length + 1) := by
    apply (firstIndexOf_eq_some_iff _ _ _).mpr
    constructor
    · show COMMIT_ID_START_TAG <+: N.drop (body.length + 1)
      have h2 : N = (body ++ "\n".data) ++ (COMMIT_ID_START_TAG
          ++ ("\n<!-- ".data ++ (sha ++ (" -->\n".data ++ COMMIT_ID_END_TAG)))) := by
        rw [hNdef]
        simp [List.append_assoc]
      rw [h2, List.drop_left' (by simp [List.length_append, h1l])]
      exact List.prefix_append _ _
    · intro j hj
      by_cases hc1 : j + 34 ≤ body.length
      · intro hocc
        exact not_occursAt_of_firstIndexOf_none _ _ hs j
          (occursAt_of_prefix_agree _ N body body.length j
            (by rw [hassoc1, List.take_left, List.take_length])
            (by rw [hST]; omega) hocc)
      · apply not_occursAt_of_getElem_ne _ _ j (body.length - j)
          (by rw [hST]; omega)
        rw [show j + (body.length - j) = body.length from by omega, hNbody]
        exact hSTnl _ (by omega)
  have hminC : ∀ j, j + 32 ≤ (body ++ "\n".data ++ COMMIT_ID_START_TAG
      ++ "\n".data).length →
      ¬ occursAt COMMIT_ID_END_TAG (body ++ "\n".data ++ COMMIT_ID_START_TAG
        ++ "\n".data) j := by
    have hassocCA : body ++ "\n".data ++ COMMIT_ID_START_TAG ++ "\n".data
        = body ++ ("\n".data ++ (COMMIT_ID_START_TAG ++ "\n".data)) := by
      simp [List.append_assoc]
    have hCALen : (body ++ "\n".data ++ COMMIT_ID_START_TAG
        ++ "\n".data).length = body.length + 36 := by
      simp [List.length_append, hST, h1l]
    intro j hj
    rw [hCALen] at hj
    by_cases hc1 : j + 32 ≤ body.length
    · intro hocc
      exact not_occursAt_of_firstIndexOf_none _ _ he j
        (occursAt_of_prefix_agree _ _ body body.length j
          (by rw [hassocCA, List.take_left, List.take_length])
          (by rw [hEN]; omega) hocc)
    · by_cases hc2 : j ≤ body.length
      · apply not_occursAt_of_getElem_ne _ _ j (body.length - j)
          (by rw [hEN]; omega)
        rw [show j + (body.length - j) = body.length from by omega]
        rw [hassocCA, List.getElem?_append_right (le_refl body.length),
          Nat.sub_self,
          List.getElem?_append_left
            (by decide : (0 : Nat) < ("\n".data : Str).length),
          (by decide : ("\n".data : Str)[0]? = some '\n')]
        exact hENnl _ (by omega)
      · by_cases hc3 : j = body.length + 1
        · apply not_occursAt_of_getElem_ne _ _ j 25 (by rw [hEN]; omega)
          subst hc3
          rw [(by decide : (COMMIT_ID_END_TAG)[25]? = some 'e'),
            hassocCA, List.getElem?_append_right (by omega),
            show body.length + 1 + 25 - body.length = 26 from by omega,
            List.getElem?_append_right
              (by decide : ("\n".data : Str).length ≤ 26),
            show (26 : Nat) - ("\n".data : Str).length = 25 from by decide,
            List.getElem?_append_left (by rw [hST]; omega),
            (by decide : (COMMIT_ID_START_TAG)[25]? = some 's')]
          decide
        · apply not_occursAt_of_getElem_ne _ _ j 0 (by rw [hEN]; omega)
          rw [Nat.add_zero, (by decide : (COMMIT_ID_END_TAG)[0]? = some '<'),
            hassocCA, List.getElem?_append_right (by omega : body.length ≤ j),
            List.getElem?_append_right
              (by rw [h1l]; omega : ("\n".data : Str).length ≤ j - body.length),
            h1l,
            List.getElem?_append_left (by rw [hST]; omega)]
          intro hcon
          exact hSTlt _ (by omega) (by omega) hcon.symm
  have hCsplit : N = (body ++ "\n".data ++ COMMIT_ID_START_TAG ++ "\n".data)
      ++ "<!-- ".data ++ sha ++ " -->\n".data ++ (COMMIT_ID_END_TAG ++ []) := by
    rw [hNdef, List.append_nil,
      (by decide : ("\n<!-- ".data : Str) = "\n".data ++ "<!-- ".data)]
    simp [List.append_assoc]
  have hfiE : firstIndexOf COMMIT_ID_END_TAG N
      = some (body.length + 46 + sha.length) := by
    rw [hCsplit, firstIndexOf_insert_end _ [] sha hsha hhex hminC]
    congr 1
    simp [List.length_append, hST, h1l]
  rw [getReviewedCommitIds.eq_def, hfiS, hfiE]
  dsimp only
  rw [hST]
  have hids : jsSubstring N (body.length + 1 + 34) (body.length + 46 + sha.length)
      = "\n<!-- ".data ++ (sha ++ " -->\n".data) := by
    rw [jsSubstring, max_eq_right (by omega), min_eq_left (by omega)]
    have htake : N.take (body.length + 46 + sha.length)
        = (body ++ "\n".data ++ COMMIT_ID_START_TAG)
            ++ ("\n<!-- ".data ++ (sha ++ " -->\n".data)) := by
      have h3 : N = ((body ++ "\n".data ++ COMMIT_ID_START_TAG)
          ++ ("\n<!-- ".data ++ (sha ++ " -->\n".data))) ++ COMMIT_ID_END_TAG := by
        rw [hNdef]
        simp [List.append_assoc]
      rw [h3, List.take_left'
        (by simp [List.length_append, hST, h1l, h6l, h5b]; omega)]
    rw [htake, List.drop_left' (by simp [List.length_append, hST, h1l])]
  rw [hids]
  rw [show ("\n<!-- ".data : Str) ++ (sha ++ " -->\n".data)
      = ['\n'] ++ ('<' :: '!' :: '-' :: '-' :: (' ' :: (sha ++ " -->\n".data)))
      from rfl]
  rw [splitOnCommentOpen_append_open ['\n'] (' ' :: (sha ++ " -->\n".data))]
  have hnolt : '<' ∉ ' ' :: (sha ++ " -->\n".data) := by
    intro hm
    rcases List.mem_cons.mp hm with h | h
    · exact absurd h (by decide)
    · rcases List.mem_append.mp h with h | h
      · exact (isShaChar_props '<' (List.all_eq_true.mp hhex _ h)).1 rfl
      · exact absurd h (by decide)
  rw [show splitOnCommentOpen ['\n'] = [['\n']] from by decide,
    splitOnCommentOpen_no_open (' ' :: (sha ++ " -->\n".data)) hnolt]
  rw [show ([['\n']] : List Str) ++ [' ' :: (sha ++ " -->\n".data)]
      = [['\n'], ' ' :: (sha ++ " -->\n".data)] from rfl]
  rw [List.map_cons, List.map_cons, List.map_nil,
    show jsTrim (replaceFirst "-->".data [] ['\n']) = ([] : Str) from by decide,
    piece_to_sha sha hsha hhex]
  rw [List.filter_cons, List.filter_cons, List.filter_nil]
  rw [if_neg (by simp), if_pos (by simp [hsha])]

/-- Appending into an existing well-formed commit-ids block (start tag
before end tag) extends the recorded list by exactly the new SHA. -/
theorem getReviewedCommitIds_add_of_block (body sha : Str)
    (hsha : sha ≠ []) (hhex : sha.all isShaChar = true) (s e : Nat)
    (hs : firstIndexOf COMMIT_ID_START_TAG body = some s)
    (he : firstIndexOf COMMIT_ID_END_TAG body = some e)
    (hse : s + 34 ≤ e) :
    getReviewedCommitIds (addReviewedCommitId body sha)
      = getReviewedCommitIds body ++ [sha] := by
  have hST : COMMIT_ID_START_TAG.length = 34 := by decide
  have hEN : COMMIT_ID_END_TAG.length = 32 := by decide
  obtain ⟨hoccS, hminS⟩ := (firstIndexOf_eq_some_iff _ _ _).mp hs
  obtain ⟨hoccE, hminE⟩ := (firstIndexOf_eq_some_iff _ _ _).mp he
  obtain ⟨w, hw⟩ := hoccS
  obtain ⟨r, hr⟩ := hoccE
  have hsle : s + 34 ≤ body.length := by
    have h1 := congrArg List.length hw
    simp [List.length_append, hST, List.length_drop] at h1
    omega
  have hele : e + 32 ≤ body.length := by
    have h1 := congrArg List.length hr
    simp [List.length_append, hEN, List.length_drop] at h1
    omega
  set A := body.take s with hAdef
  have hAlen : A.length = s := by
    rw [hAdef, List.length_take]
    omega
  have hwdrop : w = body.drop (s + 34) := by
    have h2 : (COMMIT_ID_START_TAG ++ w).drop 34 = (body.drop s).drop 34 := by
      rw [hw]
    rw [List.drop_left' hST] at h2
    rw [h2, List.drop_drop]
  set m := e - (s + 34) with hmdef
  set M := w.take m with hMdef
  have hdm : w.drop m = COMMIT_ID_END_TAG ++ r := by
    rw [hwdrop, List.drop_drop, show s + 34 + m = e from by omega]
    exact hr.symm
  have hwM : w = M ++ (COMMIT_ID_END_TAG ++ r) :=
    calc w = w.take m ++ w.drop m := (List.take_append_drop m w).symm
    _ = M ++ (COMMIT_ID_END_TAG ++ r) := by rw [hdm, ← hMdef]
  have hMlen : M.length = m := by
    rw [hMdef, List.length_take, hwdrop, List.length_drop]
    omega
  have hbody : body
      = A ++ (COMMIT_ID_START_TAG ++ (M ++ (COMMIT_ID_END_TAG ++ r))) := by
    conv_lhs => rw [← List.take_append_drop s body]
    rw [← hAdef, ← hw, hwM]
  have hCe : (A ++ COMMIT_ID_START_TAG ++ M).length = e := by
    simp [List.length_append, hAlen, hST, hMlen]
    omega
  have hbtake : body.take e = A ++ COMMIT_ID_START_TAG ++ M := by
    rw [hbody, show A ++ (COMMIT_ID_START_TAG ++ (M ++ (COMMIT_ID_END_TAG ++ r)))
        = (A ++ COMMIT_ID_START_TAG ++ M) ++ (COMMIT_ID_END_TAG ++ r)
        from by simp [List.append_assoc]]
    exact List.take_left' hCe
  have hp1 : jsSubstring body 0 (s + 34) = A ++ COMMIT_ID_START_TAG := by
    rw [jsSubstring, Nat.max_eq_right (Nat.zero_le _),
      Nat.min_eq_left (Nat.zero_le _), List.drop_zero]
    rw [hbody, show A ++ (COMMIT_ID_START_TAG ++ (M ++ (COMMIT_ID_END_TAG ++ r)))
        = (A ++ COMMIT_ID_START_TAG) ++ (M ++ (COMMIT_ID_END_TAG ++ r))
        from by simp [List.append_assoc]]
    exact List.take_left' (by simp [List.length_append, hAlen, hST])
  have hp2 : jsSubstring body (s + 34) e = M := by
    rw [jsSubstring, Nat.max_eq_right (by omega), Nat.min_eq_left (by omega),
      hbtake]
    exact List.drop_left' (by simp [List.length_append, hAlen, hST])
  have hadd : addReviewedCommitId body sha
      = (A ++ COMMIT_ID_START_TAG ++ M) ++ "<!-- ".data ++ sha ++ " -->\n".data
          ++ (COMMIT_ID_END_TAG ++ r) := by
    rw [addReviewedCommitId.eq_def, hs, he]
    dsimp only
    rw [hST, hp1, hp2, ← hr]
  have hminC : ∀ j, j + 32 ≤ (A ++ COMMIT_ID_START_TAG ++ M).length →
      ¬ occursAt COMMIT_ID_END_TAG (A ++ COMMIT_ID_START_TAG ++ M) j := by
    intro j hj hocc
    rw [hCe] at hj
    apply hminE j (by omega)
    refine occursAt_of_prefix_agree _ (A ++ COMMIT_ID_START_TAG ++ M) body e j
      ?_ (by rw [hEN]; omega) hocc
    rw [hbtake, ← hCe, List.take_length]
  have hfiE2 : firstIndexOf COMMIT_ID_END_TAG (addReviewedCommitId body sha)
      = some (e + 10 + sha.length) := by
    rw [hadd]
    have h4 := firstIndexOf_insert_end (A ++ COMMIT_ID_START_TAG ++ M) r sha
      hsha hhex hminC
    rw [hCe] at h4
    exact h4
  have hfiS2 : firstIndexOf COMMIT_ID_START_TAG (addReviewedCommitId body sha)
      = some s := by
    rw [hadd]
    apply (firstIndexOf_eq_some_iff _ _ _).mpr
    constructor
    · show COMMIT_ID_START_TAG <+: _
      rw [show (A ++ COMMIT_ID_START_TAG ++ M) ++ "<!-- ".data ++ sha
            ++ " -->\n".data ++ (COMMIT_ID_END_TAG ++ r)
          = A ++ (COMMIT_ID_START_TAG ++ (M ++ ("<!-- ".data ++ (sha
              ++ (" -->\n".data ++ (COMMIT_ID_END_TAG ++ r))))))
          from by simp [List.append_assoc]]
      rw [List.drop_left' hAlen]
      exact List.prefix_append _ _
    · intro j hj hocc
      apply hminS j hj
      refine occursAt_of_prefix_agree _ _ body e j ?_ (by rw [hST]; omega) hocc
      rw [show (A ++ COMMIT_ID_START_TAG ++ M) ++ "<!-- ".data ++ sha
            ++ " -->\n".data ++ (COMMIT_ID_END_TAG ++ r)
          = (A ++ COMMIT_ID_START_TAG ++ M) ++ ("<!-- ".data ++ (sha
              ++ (" -->\n".data ++ (COMMIT_ID_END_TAG ++ r))))
          from by simp [List.append_assoc]]
      rw [← hCe, List.take_left, hCe, hbtake]
  have hnolt : '<' ∉ ' ' :: (sha ++ " -->\n".data) := by
    intro hm
    rcases List.mem_cons.mp hm with h | h
    · exact absurd h (by decide)
    · rcases List.mem_append.mp h with h | h
      · exact (isShaChar_props '<' (List.all_eq_true.mp hhex _ h)).1 rfl
      · exact absurd h (by decide)
  have hids : jsSubstring (addReviewedCommitId body sha) (s + 34)
      (e + 10 + sha.length)
      = M ++ ("<!-- ".data ++ (sha ++ " -->\n".data)) := by
    rw [hadd, jsSubstring, Nat.max_eq_right (by omega),
      Nat.min_eq_left (by omega)]
    rw [show (A ++ COMMIT_ID_START_TAG ++ M) ++ "<!-- ".data ++ sha
          ++ " -->\n".data ++ (COMMIT_ID_END_TAG ++ r)
        = ((A ++ COMMIT_ID_START_TAG ++ M) ++ "<!-- ".data ++ sha
            ++ " -->\n".data) ++ (COMMIT_ID_END_TAG ++ r)
        from by simp [List.append_assoc]]
    rw [List.take_left'
      (by simp [List.length_append, hAlen, hST, hMlen]; omega)]
    rw [show (A ++ COMMIT_ID_START_TAG ++ M) ++ "<!-- ".data ++ sha
          ++ " -->\n".data
        = (A ++ COMMIT_ID_START_TAG) ++ (M ++ ("<!-- ".data
            ++ (sha ++ " -->\n".data)))
        from by simp [List.append_assoc]]
    exact List.drop_left' (by simp [List.length_append, hAlen, hST])
  rw [getReviewedCommitIds.eq_def, hfiS2, hfiE2]
  dsimp only
  rw [hST, hids]
  rw [getReviewedCommitIds.eq_def, hs, he]
  dsimp only
  rw [hST, hp2]
  rw [show M ++ ("<!-- ".data ++ (sha ++ " -->\n".data))
      = M ++ ('<' :: '!' :: '-' :: '-' :: (' ' :: (sha ++ " -->\n".data)))
      from rfl]
  rw [splitOnCommentOpen_append_open M (' ' :: (sha ++ " -->\n".data)),
    splitOnCommentOpen_no_open (' ' :: (sha ++ " -->\n".data)) hnolt]
  rw [List.map_append, List.filter_append]
  congr 1
  rw [List.map_cons, List.map_nil, piece_to_sha sha hsha hhex,
    List.filter_cons, List.filter_nil]
  rw [if_pos (by simp [hsha])]

/-- C7 counterexample: on a body that contains the end tag but no start
tag, `addReviewedCommitId` appends a fresh block, but the reader then
pairs the pre-existing end tag with the new start tag: the argument swap
in JS `substring` turns the reversed range into the text between them,
and the two recovered "ids" are fragments of the tags themselves rather
than the appended SHA. -/
theorem addReviewedCommitId_round_trip_counterexample :
    getReviewedCommitIds (addReviewedCommitId COMMIT_ID_END_TAG "abc1".data)
        = ["commit_ids_reviewed_end".data, "commit_ids_reviewed_start".data]
      ∧ getReviewedCommitIds COMMIT_ID_END_TAG = []
      ∧ getReviewedCommitIds (addReviewedCommitId COMMIT_ID_END_TAG "abc1".data)
        ≠ getReviewedCommitIds COMMIT_ID_END_TAG ++ ["abc1".data] := by
  decide

/-- C7 (corrected): for a nonempty lowercase-hex SHA and a body that is
well-formed for the commit-ids block — it either contains neither
delimiter tag, or contains both with the first start tag ending at or
before the first end tag — reading the ids back after
`addReviewedCommitId` yields the previously recorded ids with the new
SHA appended last. -/
theorem addReviewedCommitId_round_trip (body sha : Str)
    (hsha : sha ≠ []) (hhex : sha.all isShaChar = true)
    (hwf : (firstIndexOf COMMIT_ID_START_TAG body = none
          ∧ firstIndexOf COMMIT_ID_END_TAG body = none)
        ∨ ∃ s e, firstIndexOf COMMIT_ID_START_TAG body = some s
          ∧ firstIndexOf COMMIT_ID_END_TAG body = some e
          ∧ s + COMMIT_ID_START_TAG.length ≤ e) :
    getReviewedCommitIds (addReviewedCommitId body sha)
      = getReviewedCommitIds body ++ [sha] := by
  rcases hwf with ⟨hs, he⟩ | ⟨s, e, hs, he, hse⟩
  · rw [getReviewedCommitIds_add_of_no_tags body sha hsha hhex hs he]
    have hb : getReviewedCommitIds body = [] := by
      rw [getReviewedCommitIds.eq_def, hs, he]
    rw [hb]
    rfl
  · exact getReviewedCommitIds_add_of_block body sha hsha hhex s e hs he
      (by rw [show COMMIT_ID_START_TAG.length = 34 from by decide] at hse
          exact hse)

/-- Witness for the corrected C7 on a body holding one recorded id. -/
theorem addReviewedCommitId_round_trip_witness :
    getReviewedCommitIds (addReviewedCommitId ("Intro\n".data
        ++ COMMIT_ID_START_TAG ++ "\n<!-- abc1 -->\n".data
        ++ COMMIT_ID_END_TAG ++ "\nOutro".data) "d2f4".data)
      = ["abc1".data, "d2f4".data] := by
  have h := addReviewedCommitId_round_trip
    ("Intro\n".data ++ COMMIT_ID_START_TAG ++ "\n<!-- abc1 -->\n".data
      ++ COMMIT_ID_END_TAG ++ "\nOutro".data) "d2f4".data
    (by decide) (by decide)
    (Or.inr ⟨6, 55, by decide, by decide, by decide⟩)
  exact h.trans (by decide)
